import Mathlib

/-!
# Consistent Overhead Byte Stuffing: codec and framing queue

A shallow embedding of `cobs.c` and `cobs_fifo.c` and the properties of the
two that the specification states.

Conventions of the embedding

* A `uint8_t` stored in memory is a `Byte` (`Fin 256`).  The `uint8_t` locals
  `code` and `copy` are natural numbers, every increment and decrement taken
  modulo `2 ^ 8`.
* A pair `(ptr, len)` of the C interface is a list; `len` is its length.
* A destination that is written front to back through `*dst++ = v` is the list
  of the bytes stored, in the order of the stores.
* `int` is `Int`.  The fields of the queue never leave the range of a machine
  `int` for capacities a program can allocate.
* `mBuffer` is the byte store seen from its base address, an `Int`-indexed map.
  The allocation size is recorded in `mMaxLen` only, so an access at an index
  outside `0 .. mMaxLen - 1` is visible in the model as an access there.
* The mutex macros are no-ops in a single thread and are left out.
-/

namespace Cobs

/-- A byte of memory (`uint8_t`). -/
abbrev Byte := Fin 256

/-- Storing a `uint8_t` local into memory. -/
def toByte (n : Nat) : Byte := ⟨n % 256, Nat.mod_lt n (by decide)⟩

/-- The macro `COBS_MAX_LEN(x)` of `cobs.h` at a length `x`, with C integer
division. -/
def COBS_MAX_LEN (x : Nat) : Nat := x + (x + 255) / 254 + 1

/-! ## cobs_encode -/

/-- The locals of `cobs_encode` that change in the loop: `out` is
`dst[0 .. dst - start)`, `code_ptr` the offset of the reserved code slot in it,
`code` the running count. A reserved slot holds `0` until it is patched. -/
structure EncState where
  out : List Byte
  code_ptr : Nat
  code : Nat

/-- The statement `*dst++ = c; code++;`. -/
def EncState.put (st : EncState) (c : Byte) : EncState :=
  { st with out := st.out ++ [c], code := (st.code + 1) % 256 }

/-- The statements `*code_ptr = code; code_ptr = dst++, code = 1;`. -/
def EncState.flush (st : EncState) : EncState :=
  { out := st.out.set st.code_ptr (toByte st.code) ++ [0],
    code_ptr := st.out.length,
    code := 1 }

/-- The `while (ptr < end)` loop of `cobs_encode`, by recursion on the bytes
`ptr .. end` not yet read.  An iteration entered with `code == 0xFF` reads
nothing: it flushes, which sets `code = 1`, and the iteration that follows,
with `ptr` unchanged, reads the byte; both are taken in one step here. -/
def encLoop : List Byte → EncState → EncState
  | [], st => st
  | c :: rest, st =>
    if st.code ≠ 0xFF then
      if c ≠ 0 then encLoop rest (st.put c)
      else encLoop rest st.flush
    else
      let st1 := st.flush
      if c ≠ 0 then encLoop rest (st1.put c)
      else encLoop rest st1.flush

/-- The function `cobs_encode(ptr, len, dst)`: the value returned and the bytes
`dst[0 .. ret)` it stored. -/
def cobs_encode (ptr : List Byte) : Int × List Byte :=
  let st := encLoop ptr { out := [0], code_ptr := 0, code := 1 }
  let out := st.out.set st.code_ptr (toByte st.code) ++ [0]
  ((out.length : Int), out)

/-! ## cobs_decode -/

/-- The `for (; ptr < end; copy--)` loop of `cobs_decode`: the bytes stored
through `*dst++` from here on, given the bytes `ptr .. end` and the locals
`code` and `copy`. Every iteration reads one byte. -/
def decLoop : List Byte → Nat → Nat → List Byte
  | [], _, _ => []
  | b :: rest, code, copy =>
    if copy ≠ 0 then
      b :: decLoop rest code ((copy + 255) % 256)
    else
      let z : List Byte := if code ≠ 0xFF then [0] else []
      if b.val = 0 then z
      else z ++ decLoop rest b.val ((b.val + 255) % 256)

/-- The function `cobs_decode(ptr, len, dst)`: the value returned,
`(dst - start) - 1`, and the bytes it stored at `dst[0 ..]`. -/
def cobs_decode (ptr : List Byte) : Int × List Byte :=
  let out := decLoop ptr 0xFF 0
  ((out.length : Int) - 1, out)

/-! ## cobs_fifo -/

/-- The enumeration `cobs_fifo_status_e` of `cobs_fifo.h`. -/
inductive cobs_fifo_status_e
  | COBS_FIFO_OK
  | COBS_FIFO_OVERFLOW
  | COBS_FIFO_UNDERFLOW
  deriving DecidableEq, Repr

open cobs_fifo_status_e

/-- The structure `cobs_fifo_t` of `cobs_fifo.h`, without its mutex. -/
structure cobs_fifo_t where
  mBuffer : Int → Byte
  mHead : Int
  mTail : Int
  mCount : Int
  mFrameCount : Int
  mMaxLen : Int
  mNextLen : Int

/-- The function `cobs_fifo_init(fifo, len)`; `mem` is the content of the
region `malloc` hands out, which the function does not initialise. -/
def cobs_fifo_init (mem : Int → Byte) (len : Int) : cobs_fifo_t :=
  { mBuffer := mem, mHead := 0, mTail := 0, mCount := 0,
    mFrameCount := 0, mNextLen := 0, mMaxLen := len }

/-- The function `cobs_fifo_push(fifo, data)`. -/
def cobs_fifo_push (fifo : cobs_fifo_t) (data : Byte) :
    cobs_fifo_status_e × cobs_fifo_t :=
  let next : Int := if fifo.mHead + 1 > fifo.mMaxLen then 0 else fifo.mHead + 1
  if next = fifo.mTail then (COBS_FIFO_OVERFLOW, fifo)
  else
    let count := fifo.mCount + 1
    (COBS_FIFO_OK,
      { fifo with
        mCount := count
        mFrameCount := if data = 0 then fifo.mFrameCount + 1 else fifo.mFrameCount
        mNextLen := if data = 0 ∧ fifo.mNextLen = 0 then count else fifo.mNextLen
        mBuffer := fun i => if i = fifo.mHead then data else fifo.mBuffer i
        mHead := next })

/-- The function `cobs_fifo_pop(fifo, data)`. The argument `data` is the byte
at `*data` before the call, the third component the byte there after it. -/
def cobs_fifo_pop (fifo : cobs_fifo_t) (data : Byte) :
    cobs_fifo_status_e × cobs_fifo_t × Byte :=
  if fifo.mHead = fifo.mTail then (COBS_FIFO_UNDERFLOW, fifo, data)
  else
    let next : Int := if fifo.mTail + 1 > fifo.mMaxLen then 0 else fifo.mTail + 1
    let d := fifo.mBuffer fifo.mTail
    (COBS_FIFO_OK,
      { fifo with
        mFrameCount := if d = 0 then fifo.mFrameCount - 1 else fifo.mFrameCount
        mNextLen :=
          if d = 0 ∧ fifo.mNextLen ≥ 0 then fifo.mNextLen - 1 else fifo.mNextLen
        mTail := next
        mCount := if fifo.mCount > 0 then fifo.mCount - 1 else fifo.mCount },
      d)

/-- The loop of `cobs_fifo_push_buf` over `data[i .. len)`, with the value
`result` holds on entry. -/
def push_buf_loop : List Byte → cobs_fifo_t → cobs_fifo_status_e →
    cobs_fifo_status_e × cobs_fifo_t
  | [], fifo, result => (result, fifo)
  | d :: rest, fifo, _ =>
    let r := cobs_fifo_push fifo d
    push_buf_loop rest r.2 r.1

/-- The function `cobs_fifo_push_buf(fifo, data, len)`. -/
def cobs_fifo_push_buf (fifo : cobs_fifo_t) (data : List Byte) :
    cobs_fifo_status_e × cobs_fifo_t :=
  push_buf_loop data fifo COBS_FIFO_OK

/-- The loop of `cobs_fifo_pop_buf` over `data[i .. len)`: the list argument
is the content of those cells before the call, the third component their
content after it. -/
def pop_buf_loop : List Byte → cobs_fifo_t → cobs_fifo_status_e →
    cobs_fifo_status_e × cobs_fifo_t × List Byte
  | [], fifo, result => (result, fifo, [])
  | d :: rest, fifo, _ =>
    let r := cobs_fifo_pop fifo d
    let t := pop_buf_loop rest r.2.1 r.1
    (t.1, t.2.1, r.2.2 :: t.2.2)

/-- The function `cobs_fifo_pop_buf(fifo, data, len)`; `data` is the content of
`data[0 .. len)` before the call. -/
def cobs_fifo_pop_buf (fifo : cobs_fifo_t) (data : List Byte) :
    cobs_fifo_status_e × cobs_fifo_t × List Byte :=
  pop_buf_loop data fifo COBS_FIFO_OK

/-- The loop `for (i = 1; i < fifo->mCount; i++)` of `cobs_fifo_find_next_len`
with `k` iterations left: the value of `i` when the loop is left. -/
def find_loop (buf : Int → Byte) (maxLen : Int) : Nat → Int → Int → Int
  | 0, i, _ => i
  | k + 1, i, addr =>
    if buf addr = 0 then i
    else find_loop buf maxLen k (i + 1) (if addr + 1 = maxLen then 0 else addr + 1)

/-- The function `cobs_fifo_find_next_len(fifo)`. Without a `break` the loop
runs `mCount - 1` times, or not at all when `mCount < 1`. -/
def cobs_fifo_find_next_len (fifo : cobs_fifo_t) : Int × cobs_fifo_t :=
  if fifo.mFrameCount = 0 then (0, { fifo with mNextLen := 0 })
  else
    let i := find_loop fifo.mBuffer fifo.mMaxLen (fifo.mCount - 1).toNat 1 fifo.mTail
    (i, { fifo with mNextLen := i })

/-- The function `cobs_fifo_get_next_len(fifo)`. -/
def cobs_fifo_get_next_len (fifo : cobs_fifo_t) : Int := fifo.mNextLen

/-- The function `cobs_fifo_push_frame(fifo, data, len)`. The scratch array
`encoded` is the list `cobs_encode` returns; its declared size
`maxEncodedLen` enters the admission test only. `len` is a list length, on
which the division of `Int` is the division of C. -/
def cobs_fifo_push_frame (fifo : cobs_fifo_t) (data : List Byte) :
    cobs_fifo_status_e × cobs_fifo_t :=
  let len : Int := data.length
  let maxEncodedLen : Int := len + (len + 255) / 254
  if maxEncodedLen + fifo.mCount > fifo.mMaxLen then (COBS_FIFO_OVERFLOW, fifo)
  else
    let e := cobs_encode data
    let r := cobs_fifo_push_buf fifo (e.2.take e.1.toNat)
    (COBS_FIFO_OK, r.2)

/-- The function `cobs_fifo_pop_frame(fifo, data, len)`: the value returned,
the queue afterwards and the bytes stored at `data[0 ..]`. `scratch` is the
content of the stack cells of `encoded` before the call; the body never reads
`len`. -/
def cobs_fifo_pop_frame (fifo : cobs_fifo_t) (scratch : Nat → Byte) (_len : Int) :
    Int × cobs_fifo_t × List Byte :=
  if fifo.mFrameCount = 0 then (0, fifo, [])
  else
    let encodedLen := fifo.mNextLen
    let r := cobs_fifo_pop_buf fifo ((List.range encodedLen.toNat).map scratch)
    let d := cobs_decode r.2.2
    (d.1, (cobs_fifo_find_next_len r.2.1).2, d.2)

/-! ## Auxiliary definitions for the proofs -/

/-- The bytes `cobs_encode` stores from the code slot of the open run onwards:
`cur` holds the bytes of the open run copied so far, the first argument the
input not yet read. -/
def encTail : List Byte → List Byte → List Byte
  | [], cur => toByte (cur.length + 1) :: cur ++ [0]
  | c :: rest, cur =>
    if cur.length + 1 ≠ 0xFF then
      if c ≠ 0 then encTail rest (cur ++ [c])
      else toByte (cur.length + 1) :: cur ++ encTail rest []
    else
      toByte (cur.length + 1) :: cur ++
        (if c ≠ 0 then encTail rest [c] else toByte 1 :: encTail rest [])

/-- Whether the last code byte `cobs_encode` stores is `0xFF`, for an open run
of `n` bytes and the given unread input. -/
def endsFull : List Byte → Nat → Bool
  | [], n => decide (n + 1 = 0xFF)
  | c :: rest, n =>
    if n + 1 ≠ 0xFF then
      if c ≠ 0 then endsFull rest (n + 1) else endsFull rest 0
    else
      if c ≠ 0 then endsFull rest 1 else endsFull rest 0

/-- The cells of `buf` from address `a` upwards hold the bytes of the list, in
order. -/
def holdsAt (buf : Int → Byte) : Int → List Byte → Prop
  | _, [] => True
  | a, b :: l => buf a = b ∧ holdsAt buf (a + 1) l

/-- The queue buffers exactly the byte stream `l`, stored contiguously from
`mTail` upwards without wrapping around. -/
structure Holds (s : cobs_fifo_t) (l : List Byte) : Prop where
  head : s.mHead = s.mTail + l.length
  count : s.mCount = l.length
  room : s.mHead ≤ s.mMaxLen
  mem : holdsAt s.mBuffer s.mTail l

/-- A frame of 254 bytes `0x01`: one full run without a zero byte. -/
def fullRun : List Byte := List.replicate 254 1

/-- The frame `cobs_Frame0` of the unit tests. -/
def cobs_Frame0 : List Byte :=
  [0x00, 0x2D, 0x41, 0x00, 0x02, 0x03, 0x43, 0x00, 0x0C, 0x00, 0x2D, 0x20, 0x0C, 0x59,
   0x59, 0x5A, 0x00, 0x0C, 0x00, 0x0C, 0x00]

/-- The frame `cobs_Frame1` of the unit tests. -/
def cobs_Frame1 : List Byte :=
  [0x20, 0x0C, 0x59, 0x59, 0x5A, 0x00, 0x0C, 0x00, 0x0C, 0x00, 0x3D, 0x62]

/-- A heap region filled with `0xAA`, standing for memory nobody initialised. -/
def staleHeap : Int → Byte := fun _ => 0xAA

/-- Stack cells filled with `0xBB`, standing for memory nobody initialised. -/
def staleStack : Nat → Byte := fun _ => 0xBB

/-- The maximal zero-free suffix of a byte sequence. -/
def zeroFreeSuffix (x : List Byte) : List Byte :=
  (x.reverse.takeWhile (fun b => b != 0)).reverse

/-- The length of the maximal zero-free suffix after reading the list, when it
is `m` before: a zero byte resets it, any other byte extends it. -/
def suffixLen : List Byte → Nat → Nat
  | [], m => m
  | c :: rest, m => if c ≠ 0 then suffixLen rest (m + 1) else suffixLen rest 0

/-- The cell the cursors of `cobs_fifo_push` and `cobs_fifo_pop` move to from
cell `a`: the value of `next` in both functions. -/
def ringNext (maxLen a : Int) : Int := if a + 1 > maxLen then 0 else a + 1

/-- The bytes of `k` cells read from cell `a` on, advancing as the read cursor
of `cobs_fifo_pop` does. -/
def ringStream (buf : Int → Byte) (maxLen : Int) : Nat → Int → List Byte
  | 0, _ => []
  | k + 1, a => buf a :: ringStream buf maxLen k (ringNext maxLen a)

/-- The `mCount` bytes buffered between the read cursor and the write cursor,
oldest first. -/
def buffered (s : cobs_fifo_t) : List Byte :=
  ringStream s.mBuffer s.mMaxLen s.mCount.toNat s.mTail

/-- The states a queue created by `cobs_fifo_init(fifo, N)` takes under the
public operations that change it. `cobs_fifo_get_next_len` changes nothing. -/
inductive Reachable (N : Int) : cobs_fifo_t → Prop
  | init (mem : Int → Byte) : Reachable N (cobs_fifo_init mem N)
  | push (s : cobs_fifo_t) (d : Byte) :
      Reachable N s → Reachable N (cobs_fifo_push s d).2
  | pop (s : cobs_fifo_t) (d : Byte) :
      Reachable N s → Reachable N (cobs_fifo_pop s d).2.1
  | push_buf (s : cobs_fifo_t) (data : List Byte) :
      Reachable N s → Reachable N (cobs_fifo_push_buf s data).2
  | pop_buf (s : cobs_fifo_t) (data : List Byte) :
      Reachable N s → Reachable N (cobs_fifo_pop_buf s data).2.1
  | push_frame (s : cobs_fifo_t) (data : List Byte) :
      Reachable N s → Reachable N (cobs_fifo_push_frame s data).2
  | pop_frame (s : cobs_fifo_t) (scratch : Nat → Byte) (len : Int) :
      Reachable N s → Reachable N (cobs_fifo_pop_frame s scratch len).2.1

/-- The cursors and counters of a queue of capacity `N` describe a ring of the
cells `0 .. N`, and `mFrameCount` counts the zero bytes buffered in it. A
queue of negative capacity stays as `cobs_fifo_init` made it. -/
structure RingInv (N : Int) (s : cobs_fifo_t) : Prop where
  maxLen : s.mMaxLen = N
  shape :
    (0 ≤ s.mTail ∧ s.mTail ≤ N ∧ 0 ≤ s.mCount ∧ s.mCount ≤ N ∧ 0 ≤ s.mHead ∧ s.mHead ≤ N ∧
      (s.mHead = s.mTail + s.mCount ∨ s.mHead = s.mTail + s.mCount - (N + 1))) ∨
    (N < 0 ∧ s.mHead = 0 ∧ s.mTail = 0 ∧ s.mCount = 0)
  frames : s.mFrameCount = ((buffered s).count 0 : Nat)

/-- A queue of capacity 3 after three bytes are pushed. -/
def fullQueue3 : cobs_fifo_t :=
  (cobs_fifo_push (cobs_fifo_push (cobs_fifo_push (cobs_fifo_init staleHeap 3) 1).2 2).2 3).2

/-- The queue `fullQueue3` after one byte is popped: the write cursor stands on
`mMaxLen` and there is room for one byte. -/
def poppedQueue3 : cobs_fifo_t := (cobs_fifo_pop fullQueue3 0).2.1

/-- A queue of capacity 7 whose write cursor has wrapped: the frame `[5]` is
pushed twice, one frame is popped and `[5]` is pushed again. -/
def wrappedQueue7 : cobs_fifo_t :=
  (cobs_fifo_push_frame
    (cobs_fifo_pop_frame
      (cobs_fifo_push_frame (cobs_fifo_push_frame (cobs_fifo_init staleHeap 7) [5]).2 [5]).2
      staleStack 1).2.1
    [5]).2

/-- The 1-based offset of the first zero byte of a byte stream that has one:
the number of bytes before it, plus one. -/
def firstZeroOffset (l : List Byte) : Nat :=
  (l.takeWhile (fun b => b != 0)).length + 1

/-- The states a queue created by `cobs_fifo_init(fifo, N)`, `0 ≤ N`, takes
under the push operations and `cobs_fifo_pop_frame` as long as every push
operation finds room for its bytes between the write cursor and `mMaxLen`, so
that the write cursor never wraps. -/
inductive ReachableInRoom (N : Int) : cobs_fifo_t → Prop
  | init (mem : Int → Byte) : 0 ≤ N → ReachableInRoom N (cobs_fifo_init mem N)
  | push (s : cobs_fifo_t) (d : Byte) :
      ReachableInRoom N s → s.mHead + 1 ≤ N → ReachableInRoom N (cobs_fifo_push s d).2
  | push_buf (s : cobs_fifo_t) (data : List Byte) :
      ReachableInRoom N s → s.mHead + data.length ≤ N →
      ReachableInRoom N (cobs_fifo_push_buf s data).2
  | push_frame (s : cobs_fifo_t) (data : List Byte) :
      ReachableInRoom N s → s.mHead + (cobs_encode data).1 ≤ N →
      ReachableInRoom N (cobs_fifo_push_frame s data).2
  | pop_frame (s : cobs_fifo_t) (scratch : Nat → Byte) (len : Int) :
      ReachableInRoom N s → ReachableInRoom N (cobs_fifo_pop_frame s scratch len).2.1

/-- The queue of capacity `N` buffers the stream `l` without wrapping, counts
its zero bytes in `mFrameCount`, and `mNextLen` is `0` without a zero byte
and the offset of the first one otherwise. -/
structure FrameInv (N : Int) (s : cobs_fifo_t) (l : List Byte) : Prop where
  holds : Holds s l
  maxLen : s.mMaxLen = N
  frames : s.mFrameCount = (l.count 0 : Nat)
  none : s.mFrameCount = 0 → s.mNextLen = 0
  next : 0 < s.mFrameCount → s.mNextLen = (firstZeroOffset l : Nat)

/-- A queue of capacity 8 after `push(5)`, `push(0)` and `pop()`. -/
def rawPoppedQueue8 : cobs_fifo_t :=
  (cobs_fifo_pop (cobs_fifo_push (cobs_fifo_push (cobs_fifo_init staleHeap 8) 5).2 0).2 0).2.1

/-- The queue of the unit test `multiframes` after both frames are pushed and
the first is popped. -/
def multiframesQueue : cobs_fifo_t :=
  (cobs_fifo_pop_frame
    (cobs_fifo_push_frame
      (cobs_fifo_push_frame (cobs_fifo_init staleHeap 128) cobs_Frame0).2 cobs_Frame1).2
    staleStack 21).2.1

/-- The queue `wrappedQueue7` after one more `cobs_fifo_pop_frame`: the frame
`[5]` pushed last is the only one buffered, its encoding `02 05 00` lying in
the cells 6, 7 and 0. -/
def wrapPoppedQueue7 : cobs_fifo_t := (cobs_fifo_pop_frame wrappedQueue7 staleStack 1).2.1

/-- A queue of capacity 8 after `push_buf` of the two encoded frames
`05 00` and `06 07 00` and `pop_buf` of the two bytes of the first. -/
def bufPoppedQueue8 : cobs_fifo_t :=
  (cobs_fifo_pop_buf (cobs_fifo_push_buf (cobs_fifo_init staleHeap 8) [5, 0, 6, 7, 0]).2
    [0, 0]).2.1

/-! ## The encoder as a function of the unread input and the open run -/

theorem set_code_slot (done cur : List Byte) (a v : Byte) :
    (done ++ a :: cur).set done.length v = done ++ v :: cur := by
  induction done with
  | nil => simp
  | cons d ds ih => simp [ih]

theorem flush_shape (done cur : List Byte) (a : Byte) (k : Nat) :
    EncState.flush ⟨done ++ a :: cur, done.length, k⟩
      = ⟨(done ++ toByte k :: cur) ++ 0 :: [], (done ++ toByte k :: cur).length,
          ([] : List Byte).length + 1⟩ := by
  simp [EncState.flush, set_code_slot]

theorem put_shape (done cur : List Byte) (a c : Byte) (k : Nat) :
    EncState.put ⟨done ++ a :: cur, done.length, k⟩ c
      = ⟨done ++ a :: (cur ++ [c]), done.length, (k + 1) % 256⟩ := by
  simp [EncState.put]

theorem encLoop_spec (xs : List Byte) :
    ∀ (done cur : List Byte), cur.length + 1 ≤ 255 →
      ((encLoop xs ⟨done ++ 0 :: cur, done.length, cur.length + 1⟩).out.set
          (encLoop xs ⟨done ++ 0 :: cur, done.length, cur.length + 1⟩).code_ptr
          (toByte (encLoop xs ⟨done ++ 0 :: cur, done.length, cur.length + 1⟩).code)) ++ [0]
        = done ++ encTail xs cur := by
  induction xs with
  | nil =>
    intro done cur _
    simp [encLoop, encTail, set_code_slot]
  | cons c rest ih =>
    intro done cur hcur
    by_cases hff : cur.length + 1 = 255
    · by_cases hc : c = 0
      · have h := ih ((done ++ toByte (cur.length + 1) :: cur) ++ toByte 1 :: []) [] (by simp)
        simp only [encLoop, encTail, hff, hc, ne_eq, not_true_eq_false, if_false]
        rw [flush_shape, flush_shape]
        rw [hff] at h
        simpa using h
      · have h := ih (done ++ toByte (cur.length + 1) :: cur) [c] (by simp)
        simp only [encLoop, encTail, hff, hc, ne_eq, not_true_eq_false, not_false_eq_true,
          if_false, if_true]
        rw [flush_shape, put_shape]
        rw [hff] at h
        simpa using h
    · by_cases hc : c = 0
      · have h := ih (done ++ toByte (cur.length + 1) :: cur) [] (by simp)
        simp only [encLoop, encTail, hff, hc, ne_eq, not_true_eq_false, not_false_eq_true,
          if_false, if_true]
        rw [flush_shape]
        simpa using h
      · have h := ih done (cur ++ [c]) (by simp; omega)
        have hm : (cur.length + 1 + 1) % 256 = cur.length + 1 + 1 := by omega
        simp only [encLoop, encTail, hff, hc, ne_eq, not_true_eq_false, not_false_eq_true,
          if_false, if_true]
        rw [put_shape, hm]
        simpa using h

theorem cobs_encode_eq (x : List Byte) :
    cobs_encode x = (((encTail x []).length : Int), encTail x []) := by
  have h := encLoop_spec x [] [] (by simp)
  simp only [List.nil_append, List.length_nil, Nat.zero_add] at h
  simp only [cobs_encode, h]

/-! ## Shape, length and decoding of the encoder output -/

theorem toByte_ne_zero (n : Nat) (h1 : 1 ≤ n) (h2 : n ≤ 255) : toByte n ≠ 0 := by
  intro h
  have hv := congrArg Fin.val h
  simp only [toByte, Fin.val_zero] at hv
  omega

theorem toByte_val (n : Nat) (h2 : n ≤ 255) : (toByte n).val = n := by
  simp only [toByte]
  omega

/-- The encoder output from an open run on is a zero-free list followed by one
zero byte. -/
theorem encTail_shape (xs : List Byte) :
    ∀ cur : List Byte, cur.length + 1 ≤ 255 → (∀ b ∈ cur, b ≠ 0) →
      ∃ p : List Byte, encTail xs cur = p ++ [0] ∧ ∀ b ∈ p, b ≠ 0 := by
  induction xs with
  | nil =>
    intro cur hlen hcur
    refine ⟨toByte (cur.length + 1) :: cur, by simp [encTail], ?_⟩
    intro b hb
    rcases List.mem_cons.1 hb with h | h
    · rw [h]; exact toByte_ne_zero _ (by omega) hlen
    · exact hcur b h
  | cons c rest ih =>
    intro cur hlen hcur
    have hcode : toByte (cur.length + 1) ≠ 0 := toByte_ne_zero _ (by omega) hlen
    have hhead : ∀ b ∈ toByte (cur.length + 1) :: cur, b ≠ 0 := by
      intro b hb
      rcases List.mem_cons.1 hb with h | h
      · rw [h]; exact hcode
      · exact hcur b h
    by_cases hff : cur.length + 1 = 255
    · by_cases hc : c = 0
      · obtain ⟨p, hp, hz⟩ := ih [] (by simp) (by simp)
        refine ⟨toByte (cur.length + 1) :: cur ++ toByte 1 :: p, ?_, ?_⟩
        · simp [encTail, hff, hc, hp]
        · intro b hb
          rcases List.mem_append.1 hb with h | h
          · exact hhead b h
          · rcases List.mem_cons.1 h with h | h
            · rw [h]; exact toByte_ne_zero 1 (by omega) (by omega)
            · exact hz b h
      · obtain ⟨p, hp, hz⟩ := ih [c] (by simp) (by simpa using hc)
        refine ⟨toByte (cur.length + 1) :: cur ++ p, ?_, ?_⟩
        · simp [encTail, hff, hc, hp]
        · intro b hb
          rcases List.mem_append.1 hb with h | h
          · exact hhead b h
          · exact hz b h
    · by_cases hc : c = 0
      · obtain ⟨p, hp, hz⟩ := ih [] (by simp) (by simp)
        refine ⟨toByte (cur.length + 1) :: cur ++ p, ?_, ?_⟩
        · simp [encTail, hff, hc, hp]
        · intro b hb
          rcases List.mem_append.1 hb with h | h
          · exact hhead b h
          · exact hz b h
      · obtain ⟨p, hp, hz⟩ := ih (cur ++ [c]) (by simp; omega) (by
          intro b hb
          rcases List.mem_append.1 hb with h | h
          · exact hcur b h
          · rw [List.mem_singleton.1 h]; exact hc)
        exact ⟨p, by simp [encTail, hff, hc, hp], hz⟩

/-- Length of the encoder output from an open run on. -/
theorem encTail_length_le (xs : List Byte) :
    ∀ cur : List Byte, cur.length + 1 ≤ 255 →
      (encTail xs cur).length
        ≤ cur.length + xs.length + 2 + (cur.length + xs.length - 1) / 254 := by
  induction xs with
  | nil =>
    intro cur _
    simp [encTail]
  | cons c rest ih =>
    intro cur hlen
    by_cases hff : cur.length + 1 = 255
    · by_cases hc : c = 0
      · have h := ih [] (by simp)
        simp only [encTail, hff, hc, ne_eq, not_true_eq_false, if_false, List.length_cons,
          List.length_append, List.length_nil] at h ⊢
        omega
      · have h := ih [c] (by simp)
        simp only [encTail, hff, hc, ne_eq, not_true_eq_false, not_false_eq_true, if_false,
          if_true, List.length_cons, List.length_append, List.length_nil] at h ⊢
        omega
    · by_cases hc : c = 0
      · have h := ih [] (by simp)
        simp only [encTail, hff, hc, ne_eq, not_true_eq_false, not_false_eq_true, if_false,
          if_true, List.length_cons, List.length_append, List.length_nil] at h ⊢
        omega
      · have h := ih (cur ++ [c]) (by simp; omega)
        simp only [encTail, hff, hc, ne_eq, not_true_eq_false, not_false_eq_true, if_false,
          if_true, List.length_cons, List.length_append, List.length_nil] at h ⊢
        omega

/-- A zero-free input that fits one run is stored behind a single code byte. -/
theorem encTail_zero_free (xs : List Byte) :
    ∀ cur : List Byte, cur.length + xs.length + 1 ≤ 255 → (∀ b ∈ xs, b ≠ 0) →
      encTail xs cur = toByte (cur.length + xs.length + 1) :: (cur ++ xs) ++ [0] := by
  induction xs with
  | nil => intro cur _ _; simp [encTail]
  | cons c rest ih =>
    intro cur hlen hz
    have hc : c ≠ 0 := hz c (List.mem_cons_self _ _)
    have hff : cur.length + 1 ≠ 255 := by simp at hlen; omega
    have h := ih (cur ++ [c]) (by simp at hlen ⊢; omega)
      (fun b hb => hz b (List.mem_cons_of_mem _ hb))
    simp only [encTail, hff, hc, ne_eq, not_false_eq_true, if_true]
    rw [h]
    simp [Nat.add_assoc, Nat.add_comm 1]

/-! ### decoding -/

theorem decLoop_copy (cur : List Byte) :
    ∀ (tail : List Byte) (code : Nat), cur.length < 256 →
      decLoop (cur ++ tail) code cur.length = cur ++ decLoop tail code 0 := by
  induction cur with
  | nil => intro tail code _; simp
  | cons b bs ih =>
    intro tail code hlen
    simp only [List.length_cons] at hlen
    have hm : (bs.length + 1 + 255) % 256 = bs.length := by omega
    have h := ih tail code (by omega)
    simp only [List.cons_append, List.length_cons, decLoop, ne_eq, Nat.add_one_ne_zero,
      not_false_eq_true, if_true, hm, List.append_eq]
    rw [h]

theorem decLoop_run (cur tail : List Byte) (pc : Nat) (hlen : cur.length + 1 ≤ 255) :
    decLoop (toByte (cur.length + 1) :: cur ++ tail) pc 0
      = (if pc ≠ 0xFF then [0] else []) ++ cur ++ decLoop tail (cur.length + 1) 0 := by
  have hv : (toByte (cur.length + 1)).val = cur.length + 1 := toByte_val _ hlen
  have hm : (cur.length + 1 + 255) % 256 = cur.length := by omega
  have h := decLoop_copy cur tail (cur.length + 1) (by omega)
  simp only [List.cons_append, decLoop, ne_eq, not_true_eq_false, if_false, hv,
    Nat.add_one_ne_zero, hm, List.append_eq]
  rw [h, List.append_assoc]

/-- Decoding what the encoder stores from an open run on: the run, the unread
input, and one more zero byte unless the last code byte is `0xFF`. -/
theorem decLoop_encTail (xs : List Byte) :
    ∀ (cur : List Byte) (pc : Nat), cur.length + 1 ≤ 255 →
      decLoop (encTail xs cur) pc 0
        = (if pc ≠ 0xFF then [0] else []) ++ cur ++ xs
            ++ (if endsFull xs cur.length then [] else [0]) := by
  induction xs with
  | nil =>
    intro cur pc hlen
    have h := decLoop_run cur [0] pc hlen
    simp only [encTail, endsFull]
    rw [h]
    by_cases hff : cur.length + 1 = 255 <;> simp [decLoop, hff]
  | cons c rest ih =>
    intro cur pc hlen
    by_cases hff : cur.length + 1 = 255
    · by_cases hc : c = 0
      · have h := ih [] (0 + 1) (by simp)
        have h1 := decLoop_run cur (toByte 1 :: encTail rest []) pc hlen
        have h2 := decLoop_run [] (encTail rest []) (cur.length + 1) (by simp)
        simp only [List.length_nil, List.nil_append, List.append_nil, List.cons_append,
          Nat.zero_add] at h2 h
        simp only [encTail, endsFull, hff, hc, ne_eq, not_true_eq_false, if_false]
        rw [hff] at h1 h2
        rw [h1, h2, h]
        simp
      · have h := ih [c] (cur.length + 1) (by simp)
        have h1 := decLoop_run cur (encTail rest [c]) pc hlen
        simp only [encTail, endsFull, hff, hc, ne_eq, not_true_eq_false, not_false_eq_true,
          if_false, if_true]
        rw [hff] at h1 h
        rw [h1, h]
        simp
    · by_cases hc : c = 0
      · have h := ih [] (cur.length + 1) (by simp)
        have h1 := decLoop_run cur (encTail rest []) pc hlen
        simp only [encTail, endsFull, hff, hc, ne_eq, not_true_eq_false, not_false_eq_true,
          if_false, if_true]
        rw [h1, h]
        simp [hff]
      · have h := ih (cur ++ [c]) pc (by simp; omega)
        simp only [encTail, endsFull, hff, hc, ne_eq, not_true_eq_false, not_false_eq_true,
          if_false, if_true]
        rw [h]
        simp

/-- What `cobs_decode` returns and stores on the output of `cobs_encode`. -/
theorem cobs_decode_encode (x : List Byte) :
    cobs_decode (cobs_encode x).2
      = ((x.length : Int) - (if endsFull x 0 then 1 else 0),
          x ++ (if endsFull x 0 then [] else [0])) := by
  have h := decLoop_encTail x [] 0xFF (by simp)
  simp only [List.length_nil] at h
  simp only [cobs_encode_eq, cobs_decode, h]
  by_cases he : endsFull x 0 = true <;> simp [he]

/-! ## Single byte operations on a queue that has not wrapped -/

theorem holdsAt_push (buf : Int → Byte) (b : Byte) (l : List Byte) :
    ∀ a h : Int, h = a + l.length → holdsAt buf a l →
      holdsAt (fun i => if i = h then b else buf i) a (l ++ [b]) := by
  induction l with
  | nil =>
    intro a h hh _
    simp only [List.length_nil, Nat.cast_zero, add_zero] at hh
    simp [holdsAt, hh]
  | cons c l ih =>
    intro a h hh hl
    simp only [List.length_cons, Nat.cast_add, Nat.cast_one] at hh
    obtain ⟨h1, h2⟩ := hl
    refine ⟨?_, ih (a + 1) h (by omega) h2⟩
    have : a ≠ h := by omega
    simp [this, h1]

theorem holdsAt_left (buf : Int → Byte) (l1 l2 : List Byte) :
    ∀ a : Int, holdsAt buf a (l1 ++ l2) → holdsAt buf a l1 := by
  induction l1 with
  | nil => intro a _; trivial
  | cons c l ih =>
    intro a h
    exact ⟨h.1, ih (a + 1) h.2⟩

/-- One successful `cobs_fifo_push` on a queue that holds `l` with room behind
the write cursor. -/
theorem push_spec (s : cobs_fifo_t) (l : List Byte) (b : Byte)
    (hs : Holds s l) (hroom : s.mHead + 1 ≤ s.mMaxLen) :
    (cobs_fifo_push s b).1 = COBS_FIFO_OK ∧
    Holds (cobs_fifo_push s b).2 (l ++ [b]) ∧
    (cobs_fifo_push s b).2.mTail = s.mTail ∧
    (cobs_fifo_push s b).2.mMaxLen = s.mMaxLen ∧
    (cobs_fifo_push s b).2.mFrameCount
      = (if b = 0 then s.mFrameCount + 1 else s.mFrameCount) ∧
    (cobs_fifo_push s b).2.mNextLen
      = (if b = 0 ∧ s.mNextLen = 0 then s.mCount + 1 else s.mNextLen) := by
  have hnw : ¬ (s.mHead + 1 > s.mMaxLen) := by omega
  have hne : ¬ (s.mHead + 1 = s.mTail) := by
    have := hs.head
    omega
  simp only [cobs_fifo_push, hnw, hne, if_false, and_true, true_and]
  constructor
  · simp only [List.length_append, List.length_singleton, Nat.cast_add, Nat.cast_one]
    have := hs.head
    omega
  · simp only [List.length_append, List.length_singleton, Nat.cast_add, Nat.cast_one]
    have := hs.count
    omega
  · exact hroom
  · exact holdsAt_push s.mBuffer b l s.mTail s.mHead hs.head hs.mem

/-- One successful `cobs_fifo_pop` on a queue that holds `b :: l`. -/
theorem pop_spec (s : cobs_fifo_t) (l : List Byte) (b d : Byte)
    (hs : Holds s (b :: l)) :
    (cobs_fifo_pop s d).1 = COBS_FIFO_OK ∧
    (cobs_fifo_pop s d).2.2 = b ∧
    Holds (cobs_fifo_pop s d).2.1 l ∧
    (cobs_fifo_pop s d).2.1.mTail = s.mTail + 1 ∧
    (cobs_fifo_pop s d).2.1.mMaxLen = s.mMaxLen ∧
    (cobs_fifo_pop s d).2.1.mFrameCount
      = (if b = 0 then s.mFrameCount - 1 else s.mFrameCount) := by
  have hh := hs.head
  have hc := hs.count
  have hr := hs.room
  have hb : s.mBuffer s.mTail = b := hs.mem.1
  simp only [List.length_cons, Nat.cast_add, Nat.cast_one] at hh hc
  have hne : ¬ (s.mHead = s.mTail) := by omega
  have hnw : ¬ (s.mTail + 1 > s.mMaxLen) := by omega
  have hpos : s.mCount > 0 := by omega
  simp only [cobs_fifo_pop, hne, hnw, hpos, hb, if_false, if_true, and_true, true_and]
  constructor
  · show s.mHead = s.mTail + 1 + (l.length : Int)
    omega
  · show s.mCount - 1 = (l.length : Int)
    omega
  · exact hr
  · exact hs.mem.2

theorem push_buf_loop_append (l1 l2 : List Byte) :
    ∀ (s : cobs_fifo_t) (r : cobs_fifo_status_e),
      push_buf_loop (l1 ++ l2) s r
        = push_buf_loop l2 (push_buf_loop l1 s r).2 (push_buf_loop l1 s r).1 := by
  induction l1 with
  | nil => intro s r; rfl
  | cons c l ih => intro s r; exact ih _ _

/-- Pushing a zero-free list with room behind the write cursor. -/
theorem push_buf_loop_zero_free (p : List Byte) :
    ∀ (s : cobs_fifo_t) (r : cobs_fifo_status_e) (l : List Byte),
      Holds s l → s.mHead + p.length ≤ s.mMaxLen → (∀ b ∈ p, b ≠ 0) →
      Holds (push_buf_loop p s r).2 (l ++ p) ∧
      (push_buf_loop p s r).2.mTail = s.mTail ∧
      (push_buf_loop p s r).2.mMaxLen = s.mMaxLen ∧
      (push_buf_loop p s r).2.mFrameCount = s.mFrameCount ∧
      (push_buf_loop p s r).2.mNextLen = s.mNextLen := by
  induction p with
  | nil => intro s r l hs _ _; simpa [push_buf_loop] using hs
  | cons c p ih =>
    intro s r l hs hroom hz
    simp only [List.length_cons, Nat.cast_add, Nat.cast_one] at hroom
    have hc : c ≠ 0 := hz c (List.mem_cons_self _ _)
    obtain ⟨_, h2, h3, h4, h5, h6⟩ := push_spec s l c hs (by omega)
    have hh1 := hs.head
    have hh2 := h2.head
    simp only [List.length_append, List.length_singleton, Nat.cast_add, Nat.cast_one] at hh2
    obtain ⟨k1, k2, k3, k4, k5⟩ :=
      ih (cobs_fifo_push s c).2 (cobs_fifo_push s c).1 (l ++ [c]) h2 (by omega)
        (fun b hb => hz b (List.mem_cons_of_mem _ hb))
    simp only [hc, if_false, false_and] at h5 h6
    simp only [push_buf_loop]
    refine ⟨by simpa using k1, by rw [k2, h3], by rw [k3, h4], by rw [k4, h5], by rw [k5, h6]⟩

/-! ## Bulk operations and the rescan -/

/-- Pushing a zero-free list followed by a delimiter, with room for all of it. -/
theorem push_buf_frame (s : cobs_fifo_t) (l p : List Byte)
    (hs : Holds s l) (hroom : s.mHead + (p ++ [0]).length ≤ s.mMaxLen)
    (hz : ∀ b ∈ p, b ≠ 0) :
    Holds (cobs_fifo_push_buf s (p ++ [0])).2 (l ++ (p ++ [0])) ∧
    (cobs_fifo_push_buf s (p ++ [0])).2.mTail = s.mTail ∧
    (cobs_fifo_push_buf s (p ++ [0])).2.mMaxLen = s.mMaxLen ∧
    (cobs_fifo_push_buf s (p ++ [0])).2.mFrameCount = s.mFrameCount + 1 ∧
    (cobs_fifo_push_buf s (p ++ [0])).2.mNextLen
      = (if s.mNextLen = 0 then s.mCount + (p ++ [0]).length else s.mNextLen) := by
  simp only [List.length_append, List.length_singleton, Nat.cast_add, Nat.cast_one] at hroom
  obtain ⟨k1, k2, k3, k4, k5⟩ :=
    push_buf_loop_zero_free p s COBS_FIFO_OK l hs (by omega) hz
  have hh := k1.head
  have hh0 := hs.head
  have hc := k1.count
  have hc0 := hs.count
  simp only [List.length_append, Nat.cast_add] at hh hc
  obtain ⟨_, h2, h3, h4, h5, h6⟩ :=
    push_spec (push_buf_loop p s COBS_FIFO_OK).2 (l ++ p) 0 k1 (by omega)
  simp only [cobs_fifo_push_buf, push_buf_loop_append, push_buf_loop]
  simp only [if_true, true_and] at h5 h6
  refine ⟨by simpa using h2, by rw [h3, k2], by rw [h4, k3], by rw [h5, k4], ?_⟩
  rw [h6, k5]
  by_cases hn : s.mNextLen = 0
  · simp only [hn, if_true, List.length_append, List.length_singleton, Nat.cast_add,
      Nat.cast_one]
    omega
  · simp only [hn, if_false]

theorem pop_buf_loop_spec (l1 : List Byte) :
    ∀ (s : cobs_fifo_t) (r : cobs_fifo_status_e) (d0 l2 : List Byte),
      Holds s (l1 ++ l2) → d0.length = l1.length →
      (pop_buf_loop d0 s r).2.2 = l1 ∧
      Holds (pop_buf_loop d0 s r).2.1 l2 ∧
      (pop_buf_loop d0 s r).2.1.mTail = s.mTail + l1.length ∧
      (pop_buf_loop d0 s r).2.1.mMaxLen = s.mMaxLen ∧
      (pop_buf_loop d0 s r).2.1.mFrameCount = s.mFrameCount - (l1.count 0 : Nat) := by
  induction l1 with
  | nil =>
    intro s r d0 l2 hs hd
    have : d0 = [] := List.length_eq_zero.1 (by simpa using hd)
    subst this
    simpa [pop_buf_loop] using hs
  | cons c l1 ih =>
    intro s r d0 l2 hs hd
    cases d0 with
    | nil => simp at hd
    | cons d d0 =>
      simp only [List.length_cons, Nat.add_right_cancel_iff] at hd
      obtain ⟨_, h2, h3, h4, h5, h6⟩ := pop_spec s (l1 ++ l2) c d hs
      obtain ⟨k1, k2, k3, k4, k5⟩ :=
        ih (cobs_fifo_pop s d).2.1 (cobs_fifo_pop s d).1 d0 l2 h3 hd
      simp only [pop_buf_loop]
      refine ⟨by rw [k1, h2], k2, ?_, by rw [k4, h5], ?_⟩
      · rw [k3, h4]
        simp only [List.length_cons, Nat.cast_add, Nat.cast_one]
        omega
      · rw [k5, h6]
        by_cases hc : c = 0
        · subst hc
          simp only [if_true, List.count_cons_self, Nat.cast_add, Nat.cast_one]
          omega
        · have hc2 : (0 : Byte) ≠ c := fun h => hc h.symm
          simp only [hc, if_false, List.count_cons_of_ne hc2]

theorem find_loop_zero_free (buf : Int → Byte) (maxLen : Int) (p : List Byte) :
    ∀ (i addr : Int), holdsAt buf addr p → (∀ b ∈ p, b ≠ 0) →
      addr + p.length < maxLen →
      find_loop buf maxLen p.length i addr = i + p.length := by
  induction p with
  | nil => intro i addr _ _ _; simp [find_loop]
  | cons c p ih =>
    intro i addr hm hz hlt
    simp only [List.length_cons, Nat.cast_add, Nat.cast_one] at hlt
    have hc : buf addr ≠ 0 := by
      rw [hm.1]
      exact hz c (List.mem_cons_self _ _)
    have hnw : ¬ (addr + 1 = maxLen) := by omega
    have h := ih (i + 1) (addr + 1) hm.2 (fun b hb => hz b (List.mem_cons_of_mem _ hb))
      (by omega)
    simp only [List.length_cons, find_loop, hc, hnw, if_false, h, Nat.cast_add, Nat.cast_one]
    omega

/-- The rescan of `cobs_fifo_find_next_len` on a queue whose stream is a
zero-free list and one more byte. -/
theorem find_next_len_spec (s : cobs_fifo_t) (p : List Byte) (b : Byte)
    (hs : Holds s (p ++ [b])) (hz : ∀ c ∈ p, c ≠ 0) (hfc : s.mFrameCount ≠ 0) :
    (cobs_fifo_find_next_len s).2 = { s with mNextLen := (p ++ [b]).length } := by
  have hh := hs.head
  have hc := hs.count
  have hr := hs.room
  simp only [List.length_append, List.length_singleton, Nat.cast_add, Nat.cast_one] at hh hc
  have hk : (s.mCount - 1).toNat = p.length := by omega
  have h := find_loop_zero_free s.mBuffer s.mMaxLen p 1 s.mTail
    (holdsAt_left _ _ _ _ hs.mem) hz (by omega)
  simp only [cobs_fifo_find_next_len, hfc, if_false, hk, h, List.length_append,
    List.length_singleton, Nat.cast_add, Nat.cast_one]
  congr 1
  omega

theorem holds_set_next_len (s : cobs_fifo_t) (l : List Byte) (n : Int) (hs : Holds s l) :
    Holds { s with mNextLen := n } l :=
  ⟨hs.head, hs.count, hs.room, hs.mem⟩

theorem count_zero_frame (p : List Byte) (hz : ∀ b ∈ p, b ≠ 0) :
    (p ++ [0]).count (0 : Byte) = 1 := by
  have : p.count (0 : Byte) = 0 := List.count_eq_zero.2 (fun h => hz 0 h rfl)
  simp [List.count_append, this]

/-! ## Frame operations -/

/-- An admitted `cobs_fifo_push_frame` with room for the whole encoding behind
the write cursor. -/
theorem push_frame_spec (s : cobs_fifo_t) (l x : List Byte) (hs : Holds s l)
    (hadm : (x.length : Int) + ((x.length : Int) + 255) / 254 + s.mCount ≤ s.mMaxLen)
    (hroom : s.mHead + (encTail x []).length ≤ s.mMaxLen) :
    (cobs_fifo_push_frame s x).1 = COBS_FIFO_OK ∧
    Holds (cobs_fifo_push_frame s x).2 (l ++ encTail x []) ∧
    (cobs_fifo_push_frame s x).2.mTail = s.mTail ∧
    (cobs_fifo_push_frame s x).2.mMaxLen = s.mMaxLen ∧
    (cobs_fifo_push_frame s x).2.mFrameCount = s.mFrameCount + 1 ∧
    (cobs_fifo_push_frame s x).2.mNextLen
      = (if s.mNextLen = 0 then s.mCount + (encTail x []).length else s.mNextLen) := by
  obtain ⟨p, hp, hz⟩ := encTail_shape x [] (by simp) (by simp)
  have hadm2 : ¬ ((x.length : Int) + ((x.length : Int) + 255) / 254 + s.mCount > s.mMaxLen) := by
    omega
  have h := push_buf_frame s l p hs (by rw [← hp]; exact hroom) hz
  simp only [cobs_fifo_push_frame, hadm2, if_false, cobs_encode_eq, Int.toNat_ofNat,
    List.take_length, true_and]
  rw [hp]
  exact h

/-- A `cobs_fifo_pop_frame` on a queue whose stream starts with one encoded
frame `p ++ [0]` and whose `mNextLen` is the length of that frame. -/
theorem pop_frame_spec (s : cobs_fifo_t) (p l2 : List Byte) (scratch : Nat → Byte)
    (len : Int) (hs : Holds s ((p ++ [0]) ++ l2)) (hz : ∀ b ∈ p, b ≠ 0)
    (hnl : s.mNextLen = (p ++ [0]).length) (hfc : s.mFrameCount ≠ 0) :
    (cobs_fifo_pop_frame s scratch len).1 = (cobs_decode (p ++ [0])).1 ∧
    (cobs_fifo_pop_frame s scratch len).2.2 = (cobs_decode (p ++ [0])).2 ∧
    ∃ s1 : cobs_fifo_t, Holds s1 l2 ∧ s1.mMaxLen = s.mMaxLen ∧
      s1.mFrameCount = s.mFrameCount - 1 ∧
      (cobs_fifo_pop_frame s scratch len).2.1 = (cobs_fifo_find_next_len s1).2 := by
  have hlen : ((List.range s.mNextLen.toNat).map scratch).length = (p ++ [0]).length := by
    rw [hnl]
    simp
  obtain ⟨k1, k2, _, k4, k5⟩ :=
    pop_buf_loop_spec (p ++ [0]) s COBS_FIFO_OK _ l2 hs hlen
  rw [count_zero_frame p hz] at k5
  simp only [cobs_fifo_pop_frame, hfc, if_false, cobs_fifo_pop_buf, k1, true_and]
  exact ⟨_, k2, k4, by rw [k5]; simp, rfl⟩

/-- Popping the only buffered frame leaves the queue empty. -/
theorem pop_frame_last (s : cobs_fifo_t) (p : List Byte) (scratch : Nat → Byte)
    (len : Int) (hs : Holds s (p ++ [0])) (hz : ∀ b ∈ p, b ≠ 0)
    (hnl : s.mNextLen = (p ++ [0]).length) (hfc : s.mFrameCount = 1) :
    (cobs_fifo_pop_frame s scratch len).2.1.mCount = 0 ∧
    (cobs_fifo_pop_frame s scratch len).2.1.mFrameCount = 0 ∧
    (cobs_fifo_pop_frame s scratch len).2.1.mNextLen = 0 := by
  obtain ⟨_, _, s1, h1, _, h3, h4⟩ :=
    pop_frame_spec s p [] scratch len (by simpa using hs) hz hnl (by omega)
  have hfc1 : s1.mFrameCount = 0 := by omega
  have hc := h1.count
  rw [h4]
  simp only [cobs_fifo_find_next_len, hfc1, if_true]
  simpa using hc

/-- Popping the oldest frame when the stream goes on with another frame. -/
theorem pop_frame_more (s : cobs_fifo_t) (p p2 : List Byte) (scratch : Nat → Byte)
    (len : Int) (hs : Holds s ((p ++ [0]) ++ (p2 ++ [0]))) (hz : ∀ b ∈ p, b ≠ 0)
    (hz2 : ∀ b ∈ p2, b ≠ 0)
    (hnl : s.mNextLen = (p ++ [0]).length) (hfc : s.mFrameCount = 2) :
    Holds (cobs_fifo_pop_frame s scratch len).2.1 (p2 ++ [0]) ∧
    (cobs_fifo_pop_frame s scratch len).2.1.mFrameCount = 1 ∧
    (cobs_fifo_pop_frame s scratch len).2.1.mNextLen = (p2 ++ [0]).length := by
  obtain ⟨_, _, s1, h1, _, h3, h4⟩ :=
    pop_frame_spec s p (p2 ++ [0]) scratch len hs hz hnl (by omega)
  have hfc1 : s1.mFrameCount ≠ 0 := by omega
  rw [h4, find_next_len_spec s1 p2 0 h1 hz2 hfc1]
  exact ⟨holds_set_next_len s1 _ _ h1, by show s1.mFrameCount = 1; omega, rfl⟩

theorem holds_init (mem : Int → Byte) (N : Int) (hN : 0 ≤ N) :
    Holds (cobs_fifo_init mem N) [] :=
  ⟨by simp [cobs_fifo_init], by simp [cobs_fifo_init], by simpa [cobs_fifo_init] using hN, trivial⟩

theorem encTail_length_max (x : List Byte) :
    (encTail x []).length ≤ COBS_MAX_LEN x.length := by
  have h := encTail_length_le x [] (by simp)
  simp only [List.length_nil, Nat.zero_add] at h
  simp only [COBS_MAX_LEN]
  omega

/-! ## Claims on the codec -/

theorem endsFull_zero_free (xs : List Byte) :
    ∀ n : Nat, n + xs.length + 1 ≤ 255 → (∀ b ∈ xs, b ≠ 0) →
      endsFull xs n = decide (n + xs.length + 1 = 255) := by
  induction xs with
  | nil => intro n _ _; simp [endsFull]
  | cons c rest ih =>
    intro n hlen hz
    simp only [List.length_cons] at hlen
    have hc : c ≠ 0 := hz c (List.mem_cons_self _ _)
    have hff : n + 1 ≠ 255 := by omega
    have h := ih (n + 1) (by omega) (fun b hb => hz b (List.mem_cons_of_mem _ hb))
    simp only [endsFull, hff, hc, ne_eq, not_false_eq_true, if_true, h, List.length_cons]
    congr 1
    apply propext
    constructor <;> intro h <;> omega

theorem encode_full_run_eq (x : List Byte) (hlen : x.length = 254)
    (hz : ∀ b ∈ x, b ≠ 0) :
    cobs_encode x = (256, toByte 255 :: x ++ [0]) := by
  have h := encTail_zero_free x [] (by simp [hlen]) hz
  simp only [List.length_nil, Nat.zero_add, List.nil_append, hlen] at h
  rw [cobs_encode_eq, h]
  simp [hlen]

theorem fullRun_length : fullRun.length = 254 := List.length_replicate _ _

theorem fullRun_zero_free : ∀ b ∈ fullRun, b ≠ 0 := by
  intro b hb
  rw [List.eq_of_mem_replicate hb]
  decide

theorem endsFull_fullRun : endsFull fullRun 0 = true := by
  rw [endsFull_zero_free _ 0 (by rw [fullRun_length]) fullRun_zero_free, fullRun_length]
  rfl

theorem cobs_decode_fullRun : cobs_decode (cobs_encode fullRun).2 = (253, fullRun) := by
  rw [cobs_decode_encode, endsFull_fullRun, fullRun_length]
  simp

/-- C1, evaluated where it fails: on the encoding of 254 bytes `0x01`,
`cobs_decode` stores the 254 bytes and returns 253. -/
theorem cobs_decode_encode_full_run :
    fullRun.length = 254 ∧
    (cobs_decode (cobs_encode fullRun).2).1 = 253 ∧
    (cobs_decode (cobs_encode fullRun).2).2 = fullRun := by
  rw [cobs_decode_fullRun]
  exact ⟨fullRun_length, rfl, rfl⟩

/-- C2: the last byte `cobs_encode` stores is zero and every byte before it,
code byte or data byte, is non-zero. -/
theorem cobs_encode_no_zero (x : List Byte) :
    (cobs_encode x).2.getLast? = some 0 ∧ ∀ b ∈ (cobs_encode x).2.dropLast, b ≠ 0 := by
  obtain ⟨p, hp, hz⟩ := encTail_shape x [] (by simp) (by simp)
  rw [cobs_encode_eq, hp]
  simpa using hz

/-- C4: the value `cobs_encode` returns, which is the number of bytes it
stores, is at most `COBS_MAX_LEN` of the input length. -/
theorem cobs_encode_le_max_len (x : List Byte) :
    (cobs_encode x).1 ≤ (COBS_MAX_LEN x.length : Int) ∧
    (cobs_encode x).1 = ((cobs_encode x).2.length : Int) := by
  have h := encTail_length_max x
  rw [cobs_encode_eq]
  refine ⟨?_, rfl⟩
  show ((encTail x []).length : Int) ≤ _
  exact_mod_cast h

/-- C5 as stated fails: 254 bytes `0x01` encode to 256 bytes, and
`COBS_MAX_LEN(254)` is 257. -/
theorem cobs_encode_full_run_not_max :
    fullRun.length = 254 ∧ (∀ b ∈ fullRun, b ≠ 0) ∧
    (cobs_encode fullRun).1 ≠ (COBS_MAX_LEN 254 : Int) := by
  refine ⟨fullRun_length, fullRun_zero_free, ?_⟩
  rw [encode_full_run_eq _ fullRun_length fullRun_zero_free]
  decide

/-- C5, amended: for every input of 254 non-zero bytes `cobs_encode` returns
256, one less than `COBS_MAX_LEN(254)`. -/
theorem cobs_encode_full_run_len (x : List Byte) (hlen : x.length = 254)
    (hz : ∀ b ∈ x, b ≠ 0) :
    (cobs_encode x).1 = 256 ∧ (cobs_encode x).1 = (COBS_MAX_LEN 254 : Int) - 1 := by
  rw [encode_full_run_eq x hlen hz]
  refine ⟨rfl, ?_⟩
  show (256 : Int) = (COBS_MAX_LEN 254 : Int) - 1
  decide

/-- The amended C5 at the frame of 254 bytes `0x01`. -/
theorem cobs_encode_full_run_len_witness :
    fullRun.length = 254 ∧ (∀ b ∈ fullRun, b ≠ 0) ∧
    (cobs_encode fullRun).1 = 256 ∧
    (cobs_encode fullRun).1 = (COBS_MAX_LEN 254 : Int) - 1 :=
  ⟨fullRun_length, fullRun_zero_free,
    cobs_encode_full_run_len fullRun fullRun_length fullRun_zero_free⟩

/-- C6 as stated fails at the empty frame: its encoding has 2 bytes, and
`0 + ceil(0 / 254) + 1` is 1. -/
theorem cobs_encode_nil_exceeds :
    ¬ ((cobs_encode []).1
        ≤ (((([] : List Byte).length + (([] : List Byte).length + 253) / 254 + 1 : Nat)) : Int)) := by
  decide

/-- C6, amended: for every frame of length `n ≥ 1` the encoding, delimiter
included, has at most `n + ceil(n / 254) + 1` bytes, `ceil(n / 254)` being
`(n + 253) / 254`. -/
theorem cobs_encode_le_ceil (x : List Byte) (hx : 1 ≤ x.length) :
    (cobs_encode x).1 ≤ ((x.length + (x.length + 253) / 254 + 1 : Nat) : Int) := by
  have h := encTail_length_le x [] (by simp)
  simp only [List.length_nil, Nat.zero_add] at h
  rw [cobs_encode_eq]
  have : (encTail x []).length ≤ x.length + (x.length + 253) / 254 + 1 := by omega
  show ((encTail x []).length : Int) ≤ _
  exact_mod_cast this

/-- The amended C6 at the frame `[5, 0, 6]`. -/
theorem cobs_encode_le_ceil_witness :
    1 ≤ ([5, 0, 6] : List Byte).length ∧
    (cobs_encode [5, 0, 6]).1
      ≤ ((([5, 0, 6] : List Byte).length
            + (([5, 0, 6] : List Byte).length + 253) / 254 + 1 : Nat) : Int) :=
  ⟨by decide, cobs_encode_le_ceil [5, 0, 6] (by decide)⟩

/-! ## Claims on the framing queue -/

/-- The first `cobs_fifo_push_frame` on a fresh queue of sufficient capacity. -/
theorem push_frame_fresh (mem : Int → Byte) (N : Int) (x : List Byte)
    (hN : (COBS_MAX_LEN x.length : Int) ≤ N) :
    (cobs_fifo_push_frame (cobs_fifo_init mem N) x).1 = COBS_FIFO_OK ∧
    Holds (cobs_fifo_push_frame (cobs_fifo_init mem N) x).2 (encTail x []) ∧
    (cobs_fifo_push_frame (cobs_fifo_init mem N) x).2.mTail = 0 ∧
    (cobs_fifo_push_frame (cobs_fifo_init mem N) x).2.mMaxLen = N ∧
    (cobs_fifo_push_frame (cobs_fifo_init mem N) x).2.mFrameCount = 1 ∧
    (cobs_fifo_push_frame (cobs_fifo_init mem N) x).2.mNextLen = (encTail x []).length := by
  have hmax := encTail_length_max x
  have hmax2 : ((encTail x []).length : Int) ≤ (COBS_MAX_LEN x.length : Int) := by
    exact_mod_cast hmax
  simp only [COBS_MAX_LEN, Nat.cast_add, Nat.cast_one, Nat.cast_ofNat, Nat.cast_div] at hN
  have h0 := holds_init mem N (by omega)
  obtain ⟨h1, h2, h3, h4, h5, h6⟩ := push_frame_spec (cobs_fifo_init mem N) [] x h0
    (by simp only [cobs_fifo_init]; omega)
    (by simp only [cobs_fifo_init, COBS_MAX_LEN, Nat.cast_add, Nat.cast_one, Nat.cast_ofNat,
          Nat.cast_div] at hmax2 ⊢; omega)
  refine ⟨h1, by simpa using h2, by rw [h3]; rfl, by rw [h4]; rfl, by rw [h5]; rfl, ?_⟩
  rw [h6]
  simp [cobs_fifo_init]

/-- C7: a `cobs_fifo_push_frame` that returns `COBS_FIFO_OVERFLOW` leaves the
whole queue state, counters, cursors and buffer, as it was. -/
theorem push_frame_overflow_unchanged (fifo : cobs_fifo_t) (data : List Byte)
    (h : (cobs_fifo_push_frame fifo data).1 = COBS_FIFO_OVERFLOW) :
    (cobs_fifo_push_frame fifo data).2 = fifo := by
  by_cases hadm : (data.length : Int) + ((data.length : Int) + 255) / 254 + fifo.mCount
      > fifo.mMaxLen
  · simp only [cobs_fifo_push_frame, hadm, if_true]
  · simp only [cobs_fifo_push_frame, hadm, if_false] at h
    cases h

/-- C7 at a fresh queue of capacity 1 and the frame `[5]`, which is rejected. -/
theorem push_frame_overflow_unchanged_witness :
    (cobs_fifo_push_frame (cobs_fifo_init staleHeap 1) [5]).1 = COBS_FIFO_OVERFLOW ∧
    (cobs_fifo_push_frame (cobs_fifo_init staleHeap 1) [5]).2 = cobs_fifo_init staleHeap 1 :=
  ⟨by decide, push_frame_overflow_unchanged (cobs_fifo_init staleHeap 1) [5] (by decide)⟩

/-- C8, evaluated where it fails: on a fresh queue of capacity 3 the frame
`[5, 6]`, whose encoding has 4 bytes, is admitted with `COBS_FIFO_OK`; three
bytes are stored, the delimiter is not, and no frame is counted. -/
theorem push_frame_drops_delimiter :
    (cobs_encode [5, 6]).1 = 4 ∧
    (cobs_fifo_push_frame (cobs_fifo_init staleHeap 3) [5, 6]).1 = COBS_FIFO_OK ∧
    (cobs_fifo_push_frame (cobs_fifo_init staleHeap 3) [5, 6]).2.mCount = 3 ∧
    (cobs_fifo_push_frame (cobs_fifo_init staleHeap 3) [5, 6]).2.mFrameCount = 0 ∧
    (cobs_fifo_push_frame (cobs_fifo_init staleHeap 3) [5, 6]).2.mNextLen = 0 := by
  decide

/-- C10: on a fresh queue of capacity at least `COBS_MAX_LEN` of the frame
length, `cobs_fifo_push_frame` followed by `cobs_fifo_pop_frame` stores the
frame in the first `len x` destination bytes and leaves the queue empty. -/
theorem push_pop_frame_fresh (mem : Int → Byte) (scratch : Nat → Byte) (len N : Int)
    (x : List Byte) (hN : (COBS_MAX_LEN x.length : Int) ≤ N) :
    (cobs_fifo_push_frame (cobs_fifo_init mem N) x).1 = COBS_FIFO_OK ∧
    (cobs_fifo_pop_frame (cobs_fifo_push_frame (cobs_fifo_init mem N) x).2
        scratch len).2.2.take x.length = x ∧
    (cobs_fifo_pop_frame (cobs_fifo_push_frame (cobs_fifo_init mem N) x).2
        scratch len).2.1.mCount = 0 ∧
    (cobs_fifo_pop_frame (cobs_fifo_push_frame (cobs_fifo_init mem N) x).2
        scratch len).2.1.mFrameCount = 0 ∧
    (cobs_fifo_pop_frame (cobs_fifo_push_frame (cobs_fifo_init mem N) x).2
        scratch len).2.1.mNextLen = 0 := by
  obtain ⟨h1, h2, _, _, h5, h6⟩ := push_frame_fresh mem N x hN
  obtain ⟨p, hp, hz⟩ := encTail_shape x [] (by simp) (by simp)
  rw [hp] at h2 h6
  obtain ⟨_, k2, _⟩ := pop_frame_spec (cobs_fifo_push_frame (cobs_fifo_init mem N) x).2 p []
    scratch len (by simpa using h2) hz h6 (by omega)
  have hd := cobs_decode_encode x
  simp only [cobs_encode_eq, hp] at hd
  refine ⟨h1, ?_, pop_frame_last _ p scratch len h2 hz h6 h5⟩
  rw [k2, hd]
  simp

/-- C10 at the unit test `popframe`: capacity 128 and `cobs_Frame0`. -/
theorem push_pop_frame_fresh_witness :
    (COBS_MAX_LEN cobs_Frame0.length : Int) ≤ 128 ∧
    (cobs_fifo_push_frame (cobs_fifo_init staleHeap 128) cobs_Frame0).1 = COBS_FIFO_OK ∧
    (cobs_fifo_pop_frame (cobs_fifo_push_frame (cobs_fifo_init staleHeap 128) cobs_Frame0).2
        staleStack 21).2.2.take cobs_Frame0.length = cobs_Frame0 ∧
    (cobs_fifo_pop_frame (cobs_fifo_push_frame (cobs_fifo_init staleHeap 128) cobs_Frame0).2
        staleStack 21).2.1.mCount = 0 ∧
    (cobs_fifo_pop_frame (cobs_fifo_push_frame (cobs_fifo_init staleHeap 128) cobs_Frame0).2
        staleStack 21).2.1.mFrameCount = 0 ∧
    (cobs_fifo_pop_frame (cobs_fifo_push_frame (cobs_fifo_init staleHeap 128) cobs_Frame0).2
        staleStack 21).2.1.mNextLen = 0 :=
  ⟨by decide, push_pop_frame_fresh staleHeap staleStack 21 128 cobs_Frame0 (by decide)⟩

/-- C3, evaluated where it fails: a frame of 254 bytes `0x01` pushed with
`COBS_FIFO_OK` into a fresh queue of capacity 512 is found by the first
`cobs_fifo_pop_frame`, which stores its 254 bytes and returns 253. -/
theorem pop_frame_full_run_short :
    fullRun.length = 254 ∧
    (cobs_fifo_push_frame (cobs_fifo_init staleHeap 512) fullRun).1 = COBS_FIFO_OK ∧
    (cobs_fifo_push_frame (cobs_fifo_init staleHeap 512) fullRun).2.mFrameCount = 1 ∧
    (cobs_fifo_pop_frame (cobs_fifo_push_frame (cobs_fifo_init staleHeap 512) fullRun).2
        staleStack 254).1 = 253 ∧
    (cobs_fifo_pop_frame (cobs_fifo_push_frame (cobs_fifo_init staleHeap 512) fullRun).2
        staleStack 254).2.2 = fullRun := by
  have hN : (COBS_MAX_LEN fullRun.length : Int) ≤ 512 := by
    rw [fullRun_length]; decide
  obtain ⟨h1, h2, _, _, h5, h6⟩ := push_frame_fresh staleHeap 512 fullRun hN
  obtain ⟨p, hp, hz⟩ := encTail_shape fullRun [] (by simp) (by simp)
  rw [hp] at h2 h6
  obtain ⟨k1, k2, _⟩ := pop_frame_spec
    (cobs_fifo_push_frame (cobs_fifo_init staleHeap 512) fullRun).2 p []
    staleStack 254 (by simpa using h2) hz h6 (by omega)
  have hd := cobs_decode_fullRun
  simp only [cobs_encode_eq, hp] at hd
  rw [hd] at k1 k2
  exact ⟨fullRun_length, h1, h5, k1, k2⟩

/-- The read cursor of `cobs_fifo_find_next_len` wraps one cell earlier than
the cursors of `cobs_fifo_push` and `cobs_fifo_pop`: in a queue of capacity 7,
after the frames `[5]`, `[5]` are pushed, one is popped and `[5]` is pushed
again, all with `COBS_FIFO_OK`, the second pop leaves `mNextLen = 2` for a
buffered encoding of 3 bytes, and the third pop returns 0 for the frame `[5]`. -/
theorem pop_frame_after_wrap :
    let q1 := cobs_fifo_push_frame (cobs_fifo_init staleHeap 7) [5]
    let q2 := cobs_fifo_push_frame q1.2 [5]
    let r3 := cobs_fifo_pop_frame q2.2 staleStack 1
    let q4 := cobs_fifo_push_frame r3.2.1 [5]
    let r5 := cobs_fifo_pop_frame q4.2 staleStack 1
    let r6 := cobs_fifo_pop_frame r5.2.1 staleStack 1
    q1.1 = COBS_FIFO_OK ∧ q2.1 = COBS_FIFO_OK ∧ q4.1 = COBS_FIFO_OK ∧
    r3.1 = 1 ∧ r5.1 = 1 ∧ r5.2.1.mFrameCount = 1 ∧ r5.2.1.mCount = 3 ∧
    r5.2.1.mNextLen = 2 ∧ r6.1 = 0 := by
  decide

/-- C9: on a fresh queue whose capacity is at least the sum of `COBS_MAX_LEN`
of the two frame lengths, the counters after `push_frame x`, `push_frame y`
and two `pop_frame` calls are those of the encoded lengths. -/
theorem frame_bookkeeping_fresh (mem : Int → Byte) (sc1 sc2 : Nat → Byte)
    (len1 len2 N : Int) (x y : List Byte)
    (hN : ((COBS_MAX_LEN x.length + COBS_MAX_LEN y.length : Nat) : Int) ≤ N) :
    let q1 := (cobs_fifo_push_frame (cobs_fifo_init mem N) x).2
    let q2 := (cobs_fifo_push_frame q1 y).2
    let q3 := (cobs_fifo_pop_frame q2 sc1 len1).2.1
    let q4 := (cobs_fifo_pop_frame q3 sc2 len2).2.1
    (q1.mCount = (cobs_encode x).1 ∧ q1.mNextLen = (cobs_encode x).1 ∧ q1.mFrameCount = 1) ∧
    (q2.mFrameCount = 2 ∧ q2.mNextLen = (cobs_encode x).1 ∧
      q2.mCount = (cobs_encode x).1 + (cobs_encode y).1) ∧
    (q3.mCount = (cobs_encode y).1 ∧ q3.mNextLen = (cobs_encode y).1 ∧ q3.mFrameCount = 1) ∧
    (q4.mCount = 0 ∧ q4.mFrameCount = 0 ∧ q4.mNextLen = 0) := by
  intro q1 q2 q3 q4
  have hmx : ((encTail x []).length : Int) ≤ (COBS_MAX_LEN x.length : Int) := by
    exact_mod_cast encTail_length_max x
  have hmy : ((encTail y []).length : Int) ≤ (COBS_MAX_LEN y.length : Int) := by
    exact_mod_cast encTail_length_max y
  obtain ⟨px, hpx, hzx⟩ := encTail_shape x [] (by simp) (by simp)
  obtain ⟨py, hpy, hzy⟩ := encTail_shape y [] (by simp) (by simp)
  have hlx : ((encTail x []).length : Int) = px.length + 1 := by rw [hpx]; simp
  push_cast at hN
  obtain ⟨_, a2, a3, a4, a5, a6⟩ := push_frame_fresh mem N x (by omega)
  have a7 := a2.count
  have a8 := a2.head
  obtain ⟨_, b2, _, _, b5, b6⟩ := push_frame_spec q1 (encTail x []) y a2
    (by
      simp only [COBS_MAX_LEN, Nat.cast_add, Nat.cast_one, Nat.cast_ofNat, Nat.cast_div]
        at hN hmx hmy
      show (y.length : Int) + ((y.length : Int) + 255) / 254 + q1.mCount ≤ q1.mMaxLen
      rw [a7, a4]
      omega)
    (by
      show q1.mHead + ((encTail y []).length : Int) ≤ q1.mMaxLen
      rw [a8, a3, a4]
      omega)
  have b7 := b2.count
  have hnl2 : q2.mNextLen = (encTail x []).length := by
    show (cobs_fifo_push_frame q1 y).2.mNextLen = _
    rw [b6]
    have : q1.mNextLen ≠ 0 := by
      show (cobs_fifo_push_frame (cobs_fifo_init mem N) x).2.mNextLen ≠ 0
      rw [a6]; omega
    simp only [this, if_false]
    exact a6
  have hfc2 : q2.mFrameCount = 2 := by
    show (cobs_fifo_push_frame q1 y).2.mFrameCount = 2
    rw [b5]
    show (cobs_fifo_push_frame (cobs_fifo_init mem N) x).2.mFrameCount + 1 = 2
    rw [a5]; rfl
  have b2h : Holds q2 ((px ++ [0]) ++ (py ++ [0])) := by
    rw [← hpx, ← hpy]; exact b2
  obtain ⟨c1, c2, c3⟩ := pop_frame_more q2 px py sc1 len1 b2h hzx hzy
    (by rw [hnl2, hpx]) hfc2
  have c4 := c1.count
  have d := pop_frame_last q3 py sc2 len2 c1 hzy c3 c2
  simp only [cobs_encode_eq]
  refine ⟨⟨a7, a6, a5⟩, ⟨hfc2, hnl2, ?_⟩, ⟨?_, ?_, c2⟩, d⟩
  · rw [b7]; simp
  · rw [c4, hpy]
  · rw [c3, hpy]

/-- C9 at the unit test `multiframes`: capacity 128, `cobs_Frame0` and
`cobs_Frame1`. -/
theorem frame_bookkeeping_fresh_witness :
    ((COBS_MAX_LEN cobs_Frame0.length + COBS_MAX_LEN cobs_Frame1.length : Nat) : Int) ≤ 128 ∧
    (let q1 := (cobs_fifo_push_frame (cobs_fifo_init staleHeap 128) cobs_Frame0).2
     let q2 := (cobs_fifo_push_frame q1 cobs_Frame1).2
     let q3 := (cobs_fifo_pop_frame q2 staleStack 21).2.1
     let q4 := (cobs_fifo_pop_frame q3 staleStack 12).2.1
     (q1.mCount = (cobs_encode cobs_Frame0).1 ∧ q1.mNextLen = (cobs_encode cobs_Frame0).1 ∧
        q1.mFrameCount = 1) ∧
     (q2.mFrameCount = 2 ∧ q2.mNextLen = (cobs_encode cobs_Frame0).1 ∧
        q2.mCount = (cobs_encode cobs_Frame0).1 + (cobs_encode cobs_Frame1).1) ∧
     (q3.mCount = (cobs_encode cobs_Frame1).1 ∧ q3.mNextLen = (cobs_encode cobs_Frame1).1 ∧
        q3.mFrameCount = 1) ∧
     (q4.mCount = 0 ∧ q4.mFrameCount = 0 ∧ q4.mNextLen = 0)) :=
  ⟨by decide,
    frame_bookkeeping_fresh staleHeap staleStack staleStack 21 12 128 cobs_Frame0 cobs_Frame1
      (by decide)⟩

/-! ## Decoding past the delimiter and the returned length -/

/-- Decoding what the encoder stores from an open run on, followed by any
bytes: nothing behind the delimiter is read. -/
theorem decLoop_encTail_append (xs : List Byte) (s : List Byte) :
    ∀ (cur : List Byte) (pc : Nat), cur.length + 1 ≤ 255 →
      decLoop (encTail xs cur ++ s) pc 0 = decLoop (encTail xs cur) pc 0 := by
  induction xs with
  | nil =>
    intro cur pc hlen
    have h1 := decLoop_run cur ([0] ++ s) pc hlen
    have h2 := decLoop_run cur [0] pc hlen
    simp only [encTail, List.cons_append, List.append_assoc] at h1 h2 ⊢
    rw [h1, h2]
    simp [decLoop]
  | cons c rest ih =>
    intro cur pc hlen
    by_cases hff : cur.length + 1 = 255
    · by_cases hc : c = 0
      · have h := ih [] (0 + 1) (by simp)
        have h1 := decLoop_run cur (toByte 1 :: encTail rest [] ++ s) pc hlen
        have h1b := decLoop_run cur (toByte 1 :: encTail rest []) pc hlen
        have h2 := decLoop_run [] (encTail rest [] ++ s) (cur.length + 1) (by simp)
        have h2b := decLoop_run [] (encTail rest []) (cur.length + 1) (by simp)
        simp only [List.length_nil, List.nil_append, List.append_nil, List.cons_append,
          Nat.zero_add, List.append_assoc] at h1 h1b h2 h2b h
        simp only [encTail, hff, hc, ne_eq, not_true_eq_false, if_false, List.cons_append,
          List.append_assoc]
        rw [hff] at h1 h1b h2 h2b
        rw [h1, h1b, h2, h2b, h]
      · have h := ih [c] (cur.length + 1) (by simp)
        have h1 := decLoop_run cur (encTail rest [c] ++ s) pc hlen
        have h1b := decLoop_run cur (encTail rest [c]) pc hlen
        simp only [List.cons_append, List.append_assoc] at h1 h1b
        simp only [encTail, hff, hc, ne_eq, not_true_eq_false, not_false_eq_true,
          if_false, if_true, List.cons_append, List.append_assoc]
        rw [hff] at h1 h1b h
        rw [h1, h1b, h]
    · by_cases hc : c = 0
      · have h := ih [] (cur.length + 1) (by simp)
        have h1 := decLoop_run cur (encTail rest [] ++ s) pc hlen
        have h1b := decLoop_run cur (encTail rest []) pc hlen
        simp only [List.cons_append, List.append_assoc] at h1 h1b
        simp only [encTail, hff, hc, ne_eq, not_true_eq_false, not_false_eq_true,
          if_false, if_true, List.cons_append, List.append_assoc]
        rw [h1, h1b, h]
      · have h := ih (cur ++ [c]) pc (by simp; omega)
        simp only [encTail, hff, hc, ne_eq, not_true_eq_false, not_false_eq_true,
          if_false, if_true]
        exact h

/-- The run length the encoder is in and the length of the zero-free suffix
read so far determine each other; with them related, the last code byte is
`0xFF` exactly when the final suffix has a positive length divisible by 254. -/
theorem endsFull_suffixLen (xs : List Byte) :
    ∀ n m : Nat, n ≤ 254 → (m = 0 → n = 0) → (0 < m → n = (m - 1) % 254 + 1) →
      endsFull xs n
        = decide (0 < suffixLen xs m ∧ suffixLen xs m % 254 = 0) := by
  induction xs with
  | nil =>
    intro n m hn h0 h1
    simp only [endsFull, suffixLen]
    congr 1
    apply propext
    constructor
    · intro h; omega
    · intro h; omega
  | cons c rest ih =>
    intro n m hn h0 h1
    by_cases hc : c = 0
    · have h := ih 0 0 (by omega) (by omega) (by omega)
      by_cases hff : n + 1 = 255 <;>
        simp only [endsFull, suffixLen, hff, hc, ne_eq, not_true_eq_false, not_false_eq_true,
          if_false, if_true, h]
    · by_cases hff : n + 1 = 255
      · have h := ih 1 (m + 1) (by omega) (by omega) (by intro _; omega)
        simp only [endsFull, suffixLen, hff, hc, ne_eq, not_true_eq_false, not_false_eq_true,
          if_false, if_true, h]
      · have h := ih (n + 1) (m + 1) (by omega) (by omega) (by intro _; omega)
        simp only [endsFull, suffixLen, hff, hc, ne_eq, not_true_eq_false, not_false_eq_true,
          if_false, if_true, h]

theorem suffixLen_append_singleton (xs : List Byte) (b : Byte) :
    ∀ m : Nat, suffixLen (xs ++ [b]) m = if b ≠ 0 then suffixLen xs m + 1 else 0 := by
  induction xs with
  | nil => intro m; simp [suffixLen]
  | cons c rest ih =>
    intro m
    by_cases hc : c = 0 <;> simp [suffixLen, hc, ih]

/-- The left-to-right count `suffixLen` is the length of the maximal zero-free
suffix. -/
theorem suffixLen_eq (x : List Byte) : suffixLen x 0 = (zeroFreeSuffix x).length := by
  induction x using List.reverseRecOn with
  | nil => simp [suffixLen, zeroFreeSuffix]
  | append_singleton xs b ih =>
    rw [suffixLen_append_singleton, ih]
    by_cases hb : b = 0
    · simp [zeroFreeSuffix, hb]
    · simp [zeroFreeSuffix, hb, List.takeWhile_cons]

/-- A frame too short to fill a run is stored with one code byte per zero
byte, one leading code byte and the delimiter: `len + 2` bytes in all. -/
theorem encTail_length_short (xs : List Byte) :
    ∀ cur : List Byte, cur.length + xs.length ≤ 253 →
      (encTail xs cur).length = cur.length + xs.length + 2 := by
  induction xs with
  | nil => intro cur _; simp [encTail]
  | cons c rest ih =>
    intro cur hlen
    simp only [List.length_cons] at hlen
    have hff : cur.length + 1 ≠ 255 := by omega
    by_cases hc : c = 0
    · have h := ih [] (by simp; omega)
      simp only [encTail, hff, hc, ne_eq, not_true_eq_false, not_false_eq_true, if_false,
        if_true, List.length_cons, List.length_append, List.length_nil] at h ⊢
      omega
    · have h := ih (cur ++ [c]) (by simp; omega)
      simp only [encTail, hff, hc, ne_eq, not_true_eq_false, not_false_eq_true, if_false,
        if_true, List.length_cons, List.length_append, List.length_nil] at h ⊢
      omega

/-- C15: `cobs_decode` on the output of `cobs_encode` followed by any bytes
returns and stores what it does on the output of `cobs_encode` alone. -/
theorem cobs_decode_stops_at_delimiter (x s : List Byte) :
    cobs_decode ((cobs_encode x).2 ++ s) = cobs_decode (cobs_encode x).2 := by
  have h := decLoop_encTail_append x s [] 0xFF (by simp)
  simp only [cobs_encode_eq, cobs_decode, h]

/-- C17: on the output of `cobs_encode`, `cobs_decode` stores the frame as the
first `len x` bytes and returns `len x - e`, with `e = 1` when the maximal
zero-free suffix of the frame has a positive length divisible by 254 and
`e = 0` otherwise. -/
theorem cobs_decode_encode_length (x : List Byte) :
    (cobs_decode (cobs_encode x).2).2.take x.length = x ∧
    (cobs_decode (cobs_encode x).2).1
      = (x.length : Int)
        - (if 0 < (zeroFreeSuffix x).length ∧ (zeroFreeSuffix x).length % 254 = 0
            then 1 else 0) := by
  have he := endsFull_suffixLen x 0 0 (by omega) (by omega) (by omega)
  rw [suffixLen_eq] at he
  rw [cobs_decode_encode, he]
  refine ⟨by simp, ?_⟩
  by_cases h : 0 < (zeroFreeSuffix x).length ∧ (zeroFreeSuffix x).length % 254 = 0
  · simp [h]
  · simp [h]

/-- C19, evaluated where it fails: for `cobs_Frame0`, 21 bytes long, the
scratch array of `cobs_fifo_push_frame` has `21 + (21 + 255) / 254 = 22`
bytes and `cobs_encode` stores 23. -/
theorem cobs_encode_exceeds_scratch :
    (cobs_Frame0.length : Int) + ((cobs_Frame0.length : Int) + 255) / 254 = 22 ∧
    (cobs_encode cobs_Frame0).1 = 23 ∧ (cobs_encode cobs_Frame0).2.length = 23 := by
  decide

/-- The scratch array of `cobs_fifo_push_frame` is one byte short for every
frame of fewer than 253 bytes. -/
theorem cobs_encode_short_frame (x : List Byte) (hx : x.length < 253) :
    (cobs_encode x).1 = ((x.length : Int) + ((x.length : Int) + 255) / 254) + 1 := by
  have h := encTail_length_short x [] (by simp; omega)
  simp only [List.length_nil, Nat.zero_add] at h
  rw [cobs_encode_eq]
  show ((encTail x []).length : Int) = _
  rw [h]
  push_cast
  omega

/-- C20, evaluated where it fails: on the empty input and on a single
delimiter byte `cobs_decode` stores nothing and returns `-1`. -/
theorem cobs_decode_negative :
    cobs_decode [] = (-1, []) ∧ cobs_decode [0] = (-1, []) := by
  decide

/-- The value `cobs_decode` returns is one less than the number of bytes it
stores, so never below `-1`. -/
theorem cobs_decode_ge (x : List Byte) :
    (cobs_decode x).1 = ((cobs_decode x).2.length : Int) - 1 ∧ -1 ≤ (cobs_decode x).1 := by
  refine ⟨rfl, ?_⟩
  show -1 ≤ ((decLoop x 0xFF 0).length : Int) - 1
  omega

/-! ## The ring of the cursors -/

theorem ringStream_push (buf : Int → Byte) (N : Int) (d : Byte) (h : Int) :
    ∀ (k : Nat) (a : Int), 0 ≤ a → a ≤ N → (k : Int) ≤ N → 0 ≤ h → h ≤ N →
      (h = a + k ∨ h = a + k - (N + 1)) →
      ringStream (fun i => if i = h then d else buf i) N (k + 1) a
        = ringStream buf N k a ++ [d] := by
  intro k
  induction k with
  | zero =>
    intro a ha haN _ hh hhN hrel
    have : a = h := by omega
    simp [ringStream, this]
  | succ k ih =>
    intro a ha haN hk hh hhN hrel
    simp only [Nat.cast_add, Nat.cast_one] at hk hrel
    have hne : ¬ (a = h) := by omega
    have hnext := ih (ringNext N a) (by unfold ringNext; split <;> omega)
      (by unfold ringNext; split <;> omega) (by omega) hh hhN
      (by unfold ringNext; split <;> omega)
    rw [ringStream, hnext]
    simp [ringStream, hne]

theorem ringStream_length (buf : Int → Byte) (N : Int) :
    ∀ (k : Nat) (a : Int), (ringStream buf N k a).length = k := by
  intro k
  induction k with
  | zero => intro a; rfl
  | succ k ih => intro a; simp [ringStream, ih]

theorem buffered_length (s : cobs_fifo_t) : (buffered s).length = s.mCount.toNat :=
  ringStream_length _ _ _ _

/-- One `cobs_fifo_push` on a queue in the ring invariant: it succeeds exactly
when fewer than `N` bytes are buffered, and then appends the byte. -/
theorem push_ring (N : Int) (s : cobs_fifo_t) (d : Byte) (hs : RingInv N s) :
    RingInv N (cobs_fifo_push s d).2 ∧
    (s.mCount < N →
      (cobs_fifo_push s d).1 = COBS_FIFO_OK ∧
      (cobs_fifo_push s d).2.mCount = s.mCount + 1 ∧
      buffered (cobs_fifo_push s d).2 = buffered s ++ [d]) ∧
    (¬ s.mCount < N → cobs_fifo_push s d = (COBS_FIFO_OVERFLOW, s)) := by
  have hm := hs.maxLen
  have hf := hs.frames
  by_cases hlt : s.mCount < N
  · -- room: the push succeeds
    have hsh : 0 ≤ s.mTail ∧ s.mTail ≤ N ∧ 0 ≤ s.mCount ∧ s.mCount ≤ N ∧ 0 ≤ s.mHead ∧
        s.mHead ≤ N ∧ (s.mHead = s.mTail + s.mCount ∨ s.mHead = s.mTail + s.mCount - (N + 1)) := by
      rcases hs.shape with h | h
      · exact h
      · omega
    obtain ⟨h1, h2, h3, h4, h5, h6, h7⟩ := hsh
    have hne : ¬ ((if s.mHead + 1 > s.mMaxLen then 0 else s.mHead + 1) = s.mTail) := by
      rw [hm]; split <;> omega
    have hk : (s.mCount + 1).toNat = s.mCount.toNat + 1 := by omega
    have hbuf : buffered (cobs_fifo_push s d).2 = buffered s ++ [d] := by
      simp only [cobs_fifo_push, hne, if_false, buffered, hk]
      rw [hm]
      exact ringStream_push s.mBuffer N d s.mHead s.mCount.toNat s.mTail h1 h2 (by omega) h5 h6
        (by omega)
    refine ⟨?_, fun _ => ⟨?_, ?_, hbuf⟩, fun h => absurd hlt h⟩
    · refine ⟨?_, ?_, ?_⟩
      · simp only [cobs_fifo_push, hne, if_false]; exact hm
      · left
        simp only [cobs_fifo_push, hne, if_false]
        rw [hm]
        refine ⟨h1, h2, by omega, by omega, ?_, ?_, ?_⟩ <;> split <;> omega
      · rw [hbuf]
        simp only [cobs_fifo_push, hne, if_false, List.count_append, Nat.cast_add]
        by_cases hd : d = 0
        · subst hd; simp [hf]
        · have hd2 : (0 : Byte) ≠ d := fun h => hd h.symm
          simp [hd, hf, List.count_cons_of_ne hd2]
    · simp only [cobs_fifo_push, hne, if_false]
    · simp only [cobs_fifo_push, hne, if_false]
  · -- full (or negative capacity): the push is refused
    have heq : (if s.mHead + 1 > s.mMaxLen then 0 else s.mHead + 1) = s.mTail := by
      rw [hm]
      rcases hs.shape with h | h <;> split <;> omega
    have hres : cobs_fifo_push s d = (COBS_FIFO_OVERFLOW, s) := by
      simp only [cobs_fifo_push, heq, if_true]
    refine ⟨by rw [hres]; exact hs, fun h => absurd h hlt, fun _ => hres⟩

/-- One `cobs_fifo_pop` on a queue in the ring invariant: it succeeds exactly
when a byte is buffered, and then takes the oldest one. -/
theorem pop_ring (N : Int) (s : cobs_fifo_t) (d : Byte) (hs : RingInv N s) :
    RingInv N (cobs_fifo_pop s d).2.1 ∧
    (0 < s.mCount →
      (cobs_fifo_pop s d).1 = COBS_FIFO_OK ∧
      (cobs_fifo_pop s d).2.1.mCount = s.mCount - 1 ∧
      buffered s = (cobs_fifo_pop s d).2.2 :: buffered (cobs_fifo_pop s d).2.1) ∧
    (¬ 0 < s.mCount → cobs_fifo_pop s d = (COBS_FIFO_UNDERFLOW, s, d)) := by
  have hm := hs.maxLen
  have hf := hs.frames
  by_cases hpos : 0 < s.mCount
  · have hsh : 0 ≤ s.mTail ∧ s.mTail ≤ N ∧ 0 ≤ s.mCount ∧ s.mCount ≤ N ∧ 0 ≤ s.mHead ∧
        s.mHead ≤ N ∧ (s.mHead = s.mTail + s.mCount ∨ s.mHead = s.mTail + s.mCount - (N + 1)) := by
      rcases hs.shape with h | h
      · exact h
      · omega
    obtain ⟨h1, h2, h3, h4, h5, h6, h7⟩ := hsh
    have hne : ¬ (s.mHead = s.mTail) := by omega
    have hgt : s.mCount > 0 := hpos
    have hk : s.mCount.toNat = (s.mCount - 1).toNat + 1 := by omega
    have hbuf : buffered s = (cobs_fifo_pop s d).2.2 :: buffered (cobs_fifo_pop s d).2.1 := by
      simp only [cobs_fifo_pop, hne, hgt, if_false, if_true, buffered]
      rw [hk, ringStream]
      rfl
    refine ⟨?_, fun _ => ⟨?_, ?_, hbuf⟩, fun h => absurd hpos h⟩
    · refine ⟨?_, ?_, ?_⟩
      · simp only [cobs_fifo_pop, hne, if_false]; exact hm
      · left
        simp only [cobs_fifo_pop, hne, hgt, if_false, if_true]
        rw [hm]
        refine ⟨?_, ?_, by omega, by omega, h5, h6, ?_⟩ <;> split <;> omega
      · rw [hbuf] at hf
        have hd : (cobs_fifo_pop s d).2.2 = s.mBuffer s.mTail := by
          simp only [cobs_fifo_pop, hne, if_false]
        rw [hd] at hf
        by_cases hz : s.mBuffer s.mTail = 0
        · rw [hz, List.count_cons_self] at hf
          simp only [cobs_fifo_pop, hne, if_false, hz, if_true] at hf ⊢
          push_cast at hf
          omega
        · have hz2 : (0 : Byte) ≠ s.mBuffer s.mTail := fun h => hz h.symm
          rw [List.count_cons_of_ne hz2] at hf
          simp only [cobs_fifo_pop, hne, if_false, hz] at hf ⊢
          exact hf
    · simp only [cobs_fifo_pop, hne, if_false]
    · simp only [cobs_fifo_pop, hne, hgt, if_false, if_true]
  · have heq : s.mHead = s.mTail := by
      rcases hs.shape with h | h <;> omega
    have hres : cobs_fifo_pop s d = (COBS_FIFO_UNDERFLOW, s, d) := by
      simp only [cobs_fifo_pop, heq, if_true]
    refine ⟨by rw [hres]; exact hs, fun h => absurd h hpos, fun _ => hres⟩

theorem push_buf_loop_ring (N : Int) (data : List Byte) :
    ∀ (s : cobs_fifo_t) (r : cobs_fifo_status_e), RingInv N s →
      RingInv N (push_buf_loop data s r).2 := by
  induction data with
  | nil => intro s r hs; exact hs
  | cons d rest ih =>
    intro s r hs
    exact ih _ _ (push_ring N s d hs).1

theorem pop_buf_loop_ring (N : Int) (data : List Byte) :
    ∀ (s : cobs_fifo_t) (r : cobs_fifo_status_e), RingInv N s →
      RingInv N (pop_buf_loop data s r).2.1 := by
  induction data with
  | nil => intro s r hs; exact hs
  | cons d rest ih =>
    intro s r hs
    exact ih _ _ (pop_ring N s d hs).1

theorem find_next_len_ring (N : Int) (s : cobs_fifo_t) (hs : RingInv N s) :
    RingInv N (cobs_fifo_find_next_len s).2 := by
  by_cases hfc : s.mFrameCount = 0
  · simp only [cobs_fifo_find_next_len, hfc, if_true]
    exact ⟨hs.maxLen, hs.shape, by have := hs.frames; rw [hfc] at this; exact this⟩
  · simp only [cobs_fifo_find_next_len, hfc, if_false]
    exact ⟨hs.maxLen, hs.shape, hs.frames⟩

theorem push_frame_ring (N : Int) (s : cobs_fifo_t) (data : List Byte) (hs : RingInv N s) :
    RingInv N (cobs_fifo_push_frame s data).2 := by
  by_cases hadm : (data.length : Int) + ((data.length : Int) + 255) / 254 + s.mCount > s.mMaxLen
  · simp only [cobs_fifo_push_frame, hadm, if_true]
    exact hs
  · simp only [cobs_fifo_push_frame, hadm, if_false]
    exact push_buf_loop_ring N _ s _ hs

theorem pop_frame_ring (N : Int) (s : cobs_fifo_t) (scratch : Nat → Byte) (len : Int)
    (hs : RingInv N s) : RingInv N (cobs_fifo_pop_frame s scratch len).2.1 := by
  by_cases hfc : s.mFrameCount = 0
  · simp only [cobs_fifo_pop_frame, hfc, if_true]
    exact hs
  · simp only [cobs_fifo_pop_frame, hfc, if_false]
    exact find_next_len_ring N _ (pop_buf_loop_ring N _ s _ hs)

theorem init_ring (mem : Int → Byte) (N : Int) : RingInv N (cobs_fifo_init mem N) := by
  refine ⟨rfl, ?_, ?_⟩
  · by_cases hN : 0 ≤ N
    · left
      exact ⟨le_refl _, hN, le_refl _, hN, le_refl _, hN, Or.inl rfl⟩
    · right
      exact ⟨by omega, rfl, rfl, rfl⟩
  · simp [cobs_fifo_init, buffered, ringStream]

/-- Every reachable state is in the ring invariant. -/
theorem reachable_ring (N : Int) (s : cobs_fifo_t) (h : Reachable N s) : RingInv N s := by
  induction h with
  | init mem => exact init_ring mem N
  | push s d _ ih => exact (push_ring N s d ih).1
  | pop s d _ ih => exact (pop_ring N s d ih).1
  | push_buf s data _ ih => exact push_buf_loop_ring N data s _ ih
  | pop_buf s data _ ih => exact pop_buf_loop_ring N data s _ ih
  | push_frame s data _ ih => exact push_frame_ring N s data ih
  | pop_frame s scratch len _ ih => exact pop_frame_ring N s scratch len ih

/-! ## Claims on the ring -/

theorem reachable_fullQueue3 : Reachable 3 fullQueue3 :=
  Reachable.push _ _ (Reachable.push _ _ (Reachable.push _ _ (Reachable.init staleHeap)))

theorem reachable_poppedQueue3 : Reachable 3 poppedQueue3 :=
  Reachable.pop _ _ reachable_fullQueue3

theorem reachable_wrappedQueue7 : Reachable 7 wrappedQueue7 :=
  Reachable.push_frame _ _ (Reachable.pop_frame _ _ _
    (Reachable.push_frame _ _ (Reachable.push_frame _ _ (Reachable.init staleHeap))))

/-- C11: in every state reachable from `cobs_fifo_init` by the public
operations, `mFrameCount` is the number of zero bytes among the `mCount` bytes
buffered between the read cursor and the write cursor. -/
theorem frame_count_invariant (N : Int) (s : cobs_fifo_t) (h : Reachable N s) :
    s.mFrameCount = ((buffered s).count 0 : Nat) :=
  (reachable_ring N s h).frames

/-- C11 at a queue of capacity 7 whose write cursor has wrapped. -/
theorem frame_count_invariant_witness :
    Reachable 7 wrappedQueue7 ∧
    wrappedQueue7.mFrameCount = ((buffered wrappedQueue7).count 0 : Nat) :=
  ⟨reachable_wrappedQueue7, frame_count_invariant 7 wrappedQueue7 reachable_wrappedQueue7⟩

/-- C13 as stated fails: after three pushes into a queue of capacity 3 the
write cursor is 3, and `(mTail + mCount) mod 3` is 0. -/
theorem head_not_mod_capacity :
    Reachable 3 fullQueue3 ∧ fullQueue3.mMaxLen = 3 ∧
    fullQueue3.mHead ≠ (fullQueue3.mTail + fullQueue3.mCount) % 3 :=
  ⟨reachable_fullQueue3, by decide, by decide⟩

/-- C13, amended: in every state reachable from `cobs_fifo_init(N)` with
`0 ≤ N`, `0 ≤ mCount ≤ N` and `mHead = (mTail + mCount) mod (N + 1)`. -/
theorem ring_invariant (N : Int) (s : cobs_fifo_t) (h : Reachable N s) (hN : 0 ≤ N) :
    0 ≤ s.mCount ∧ s.mCount ≤ N ∧ s.mHead = (s.mTail + s.mCount) % (N + 1) := by
  rcases (reachable_ring N s h).shape with ⟨h1, h2, h3, h4, h5, h6, h7⟩ | h0
  · refine ⟨h3, h4, ?_⟩
    rcases h7 with h7 | h7
    · rw [← h7, Int.emod_eq_of_lt h5 (by omega)]
    · have : s.mTail + s.mCount = s.mHead + (N + 1) := by omega
      rw [this, Int.add_emod_self, Int.emod_eq_of_lt h5 (by omega)]
  · omega

/-- The amended C13 at the full queue of capacity 3. -/
theorem ring_invariant_witness :
    Reachable 3 fullQueue3 ∧ (0 : Int) ≤ 3 ∧
    0 ≤ fullQueue3.mCount ∧ fullQueue3.mCount ≤ 3 ∧
    fullQueue3.mHead = (fullQueue3.mTail + fullQueue3.mCount) % (3 + 1) :=
  ⟨reachable_fullQueue3, by decide, ring_invariant 3 fullQueue3 reachable_fullQueue3 (by decide)⟩

/-- C18, evaluated where it fails: in a queue of capacity 3, after three pushes
and one pop the write cursor is 3, and the next `cobs_fifo_push` returns
`COBS_FIFO_OK` and stores its byte in cell 3 of a byte store of 3 cells. -/
theorem push_writes_past_end :
    Reachable 3 poppedQueue3 ∧ poppedQueue3.mMaxLen = 3 ∧ poppedQueue3.mHead = 3 ∧
    (cobs_fifo_push poppedQueue3 4).1 = COBS_FIFO_OK ∧
    (cobs_fifo_push poppedQueue3 4).2.mBuffer 3 = 4 ∧ poppedQueue3.mBuffer 3 = 0xAA :=
  ⟨reachable_poppedQueue3, by decide, by decide, by decide, by decide, by decide⟩

/-- On a full queue every push of `cobs_fifo_push_buf` is refused. -/
theorem push_buf_loop_full (N : Int) (s : cobs_fifo_t) (hs : RingInv N s)
    (hfull : ¬ s.mCount < N) (data : List Byte) :
    ∀ r : cobs_fifo_status_e,
      push_buf_loop data s r = (if data = [] then r else COBS_FIFO_OVERFLOW, s) := by
  induction data with
  | nil => intro r; rfl
  | cons d rest ih =>
    intro r
    have hp := (push_ring N s d hs).2.2 hfull
    simp only [push_buf_loop, hp, ih]
    by_cases hr : rest = [] <;> simp [hr]

/-- The loop of `cobs_fifo_push_buf` on a queue in the ring invariant with
`N - mCount` free cells. -/
theorem push_buf_loop_best_effort (N : Int) (data : List Byte) :
    ∀ (s : cobs_fifo_t) (r : cobs_fifo_status_e), RingInv N s → 0 ≤ N →
      ((data.length : Int) ≤ N - s.mCount →
        (push_buf_loop data s r).1 = (if data = [] then r else COBS_FIFO_OK) ∧
        buffered (push_buf_loop data s r).2 = buffered s ++ data ∧
        (push_buf_loop data s r).2.mCount = s.mCount + data.length) ∧
      (N - s.mCount < (data.length : Int) →
        (push_buf_loop data s r).1 = COBS_FIFO_OVERFLOW ∧
        buffered (push_buf_loop data s r).2 = buffered s ++ data.take (N - s.mCount).toNat ∧
        (push_buf_loop data s r).2.mCount = N) := by
  induction data with
  | nil =>
    intro s r hs hN
    have hc : s.mCount ≤ N := by
      rcases hs.shape with h | h <;> omega
    refine ⟨fun _ => by simp [push_buf_loop], fun h => ?_⟩
    simp only [List.length_nil, Nat.cast_zero] at h
    omega
  | cons d rest ih =>
    intro s r hs hN
    have hc : 0 ≤ s.mCount ∧ s.mCount ≤ N := by
      rcases hs.shape with h | h <;> omega
    simp only [List.length_cons, Nat.cast_add, Nat.cast_one]
    by_cases hlt : s.mCount < N
    · obtain ⟨p1, p2, _⟩ := push_ring N s d hs
      obtain ⟨q1, q2, q3⟩ := p2 hlt
      obtain ⟨i1, i2⟩ := ih (cobs_fifo_push s d).2 (cobs_fifo_push s d).1 p1 hN
      rw [q2, q3] at i1 i2
      constructor
      · intro hle
        obtain ⟨a1, a2, a3⟩ := i1 (by omega)
        refine ⟨?_, ?_, ?_⟩
        · show (push_buf_loop rest (cobs_fifo_push s d).2 (cobs_fifo_push s d).1).1 = _
          rw [a1, q1]
          simp
        · simp only [push_buf_loop, a2, List.append_assoc, List.singleton_append]
        · simp only [push_buf_loop, a3]; omega
      · intro hgt
        obtain ⟨a1, a2, a3⟩ := i2 (by omega)
        have hk : (N - s.mCount).toNat = (N - (s.mCount + 1)).toNat + 1 := by omega
        refine ⟨?_, ?_, ?_⟩
        · simp only [push_buf_loop, a1]
        · simp only [push_buf_loop, a2, hk, List.take_succ_cons, List.append_assoc,
            List.singleton_append]
        · simp only [push_buf_loop, a3]
    · have hfull := push_buf_loop_full N s hs hlt (d :: rest) r
      have hN0 : (N - s.mCount).toNat = 0 := by omega
      constructor
      · intro hle
        omega
      · intro _
        rw [hfull, hN0]
        refine ⟨by simp, by simp, ?_⟩
        show s.mCount = N
        omega

/-- C16: on a queue reachable from `cobs_fifo_init(N)`, `0 ≤ N`, with
`f = N - mCount` free cells, `cobs_fifo_push_buf` of `L > 0` bytes returns
`COBS_FIFO_OK` and appends them all in order when `L ≤ f`; otherwise it returns
`COBS_FIFO_OVERFLOW`, has appended exactly the first `f` bytes and leaves
`mCount = N`. -/
theorem push_buf_best_effort (N : Int) (s : cobs_fifo_t) (b : List Byte)
    (h : Reachable N s) (hN : 0 ≤ N) (hL : 0 < b.length) :
    ((b.length : Int) ≤ N - s.mCount →
      (cobs_fifo_push_buf s b).1 = COBS_FIFO_OK ∧
      buffered (cobs_fifo_push_buf s b).2 = buffered s ++ b ∧
      (cobs_fifo_push_buf s b).2.mCount = s.mCount + b.length) ∧
    (N - s.mCount < (b.length : Int) →
      (cobs_fifo_push_buf s b).1 = COBS_FIFO_OVERFLOW ∧
      buffered (cobs_fifo_push_buf s b).2 = buffered s ++ b.take (N - s.mCount).toNat ∧
      (cobs_fifo_push_buf s b).2.mCount = N) := by
  have hb : b ≠ [] := by
    intro hb
    rw [hb] at hL
    exact absurd hL (by decide)
  obtain ⟨h1, h2⟩ :=
    push_buf_loop_best_effort N b s COBS_FIFO_OK (reachable_ring N s h) hN
  refine ⟨fun hle => ?_, h2⟩
  obtain ⟨a1, a2, a3⟩ := h1 hle
  simp only [hb, if_false] at a1
  exact ⟨a1, a2, a3⟩

/-- C16 at the queue of capacity 3 with one free cell: the bytes `[7]` fit, of
the bytes `[7, 8]` only the first is appended. -/
theorem push_buf_best_effort_witness :
    Reachable 3 poppedQueue3 ∧ (0 : Int) ≤ 3 ∧ 0 < ([7, 8] : List Byte).length ∧
    (((([7, 8] : List Byte).length : Nat) : Int) ≤ 3 - poppedQueue3.mCount →
      (cobs_fifo_push_buf poppedQueue3 [7, 8]).1 = COBS_FIFO_OK ∧
      buffered (cobs_fifo_push_buf poppedQueue3 [7, 8]).2 = buffered poppedQueue3 ++ [7, 8] ∧
      (cobs_fifo_push_buf poppedQueue3 [7, 8]).2.mCount
        = poppedQueue3.mCount + (([7, 8] : List Byte).length : Nat)) ∧
    (3 - poppedQueue3.mCount < ((([7, 8] : List Byte).length : Nat) : Int) →
      (cobs_fifo_push_buf poppedQueue3 [7, 8]).1 = COBS_FIFO_OVERFLOW ∧
      buffered (cobs_fifo_push_buf poppedQueue3 [7, 8]).2
        = buffered poppedQueue3 ++ ([7, 8] : List Byte).take (3 - poppedQueue3.mCount).toNat ∧
      (cobs_fifo_push_buf poppedQueue3 [7, 8]).2.mCount = 3) :=
  ⟨reachable_poppedQueue3, by decide, by decide,
    push_buf_best_effort 3 poppedQueue3 [7, 8] reachable_poppedQueue3 (by decide) (by decide)⟩

/-- The partial push of the witness, evaluated: `COBS_FIFO_OVERFLOW`, the
stream `[2, 3]` grown to `[2, 3, 7]`, the queue full. -/
theorem push_buf_partial_eval :
    buffered poppedQueue3 = [2, 3] ∧
    (cobs_fifo_push_buf poppedQueue3 [7, 8]).1 = COBS_FIFO_OVERFLOW ∧
    buffered (cobs_fifo_push_buf poppedQueue3 [7, 8]).2 = [2, 3, 7] ∧
    (cobs_fifo_push_buf poppedQueue3 [7, 8]).2.mCount = 3 := by
  decide

/-! ## The length of the next frame without wrapping -/

theorem firstZeroOffset_append (l r : List Byte) (h : (0 : Byte) ∈ l) :
    firstZeroOffset (l ++ r) = firstZeroOffset l := by
  induction l with
  | nil => simp at h
  | cons c l ih =>
    by_cases hc : c = 0
    · simp [firstZeroOffset, hc]
    · have hm : (0 : Byte) ∈ l := by
        rcases List.mem_cons.1 h with h | h
        · exact absurd h.symm hc
        · exact h
      have := ih hm
      simp only [firstZeroOffset, Nat.add_right_cancel_iff] at this
      simp [firstZeroOffset, hc, this]

theorem firstZeroOffset_zero_free (p r : List Byte) (hz : ∀ b ∈ p, b ≠ 0) :
    firstZeroOffset (p ++ 0 :: r) = p.length + 1 := by
  induction p with
  | nil => simp [firstZeroOffset]
  | cons c p ih =>
    have hc : c ≠ 0 := hz c (List.mem_cons_self _ _)
    have := ih (fun b hb => hz b (List.mem_cons_of_mem _ hb))
    simp only [firstZeroOffset, Nat.add_right_cancel_iff] at this
    simp [firstZeroOffset, hc, this]

theorem split_first_zero (l : List Byte) (h : (0 : Byte) ∈ l) :
    ∃ p r : List Byte, l = p ++ 0 :: r ∧ ∀ b ∈ p, b ≠ 0 := by
  induction l with
  | nil => simp at h
  | cons c l ih =>
    by_cases hc : c = 0
    · exact ⟨[], l, by simp [hc], by simp⟩
    · have hm : (0 : Byte) ∈ l := by
        rcases List.mem_cons.1 h with h | h
        · exact absurd h.symm hc
        · exact h
      obtain ⟨p, r, hl, hz⟩ := ih hm
      refine ⟨c :: p, r, by simp [hl], ?_⟩
      intro b hb
      rcases List.mem_cons.1 hb with hb | hb
      · rw [hb]; exact hc
      · exact hz b hb

theorem holds_buffered_aux (buf : Int → Byte) (maxLen : Int) (l : List Byte) :
    ∀ a : Int, holdsAt buf a l → a + l.length ≤ maxLen →
      ringStream buf maxLen l.length a = l := by
  induction l with
  | nil => intro a _ _; rfl
  | cons c l ih =>
    intro a hm hlen
    simp only [List.length_cons, Nat.cast_add, Nat.cast_one] at hlen
    have hn : ringNext maxLen a = a + 1 := by
      unfold ringNext
      split
      · omega
      · rfl
    simp only [List.length_cons, ringStream, hn, hm.1, ih (a + 1) hm.2 (by omega)]

/-- A queue that holds `l` without wrapping buffers `l`. -/
theorem holds_buffered (s : cobs_fifo_t) (l : List Byte) (hs : Holds s l) :
    buffered s = l := by
  have h1 := hs.head
  have h2 := hs.count
  have h3 := hs.room
  have hk : s.mCount.toNat = l.length := by omega
  simp only [buffered, hk]
  exact holds_buffered_aux s.mBuffer s.mMaxLen l s.mTail hs.mem (by omega)

theorem find_loop_hit (buf : Int → Byte) (maxLen : Int) (p : List Byte) :
    ∀ (k : Nat) (i addr : Int) (r : List Byte), holdsAt buf addr (p ++ 0 :: r) →
      (∀ b ∈ p, b ≠ 0) → p.length ≤ k → addr + p.length < maxLen →
      find_loop buf maxLen k i addr = i + p.length := by
  induction p with
  | nil =>
    intro k i addr r hm _ _ _
    cases k with
    | zero => simp [find_loop]
    | succ k => simp [find_loop, hm.1]
  | cons c p ih =>
    intro k i addr r hm hz hk hlt
    simp only [List.length_cons, Nat.cast_add, Nat.cast_one] at hlt
    simp only [List.length_cons] at hk
    cases k with
    | zero => omega
    | succ k =>
      have hc : buf addr ≠ 0 := by
        rw [hm.1]
        exact hz c (List.mem_cons_self _ _)
      have hnw : ¬ (addr + 1 = maxLen) := by omega
      have h := ih k (i + 1) (addr + 1) r hm.2
        (fun b hb => hz b (List.mem_cons_of_mem _ hb)) (by omega) (by omega)
      simp only [List.length_cons, find_loop, hc, hnw, if_false, h, Nat.cast_add,
        Nat.cast_one]
      omega

/-- The rescan of `cobs_fifo_find_next_len` on a queue that holds a stream with
a zero byte, without wrapping. -/
theorem find_next_len_hit (s : cobs_fifo_t) (p r : List Byte)
    (hs : Holds s (p ++ 0 :: r)) (hz : ∀ c ∈ p, c ≠ 0) (hfc : s.mFrameCount ≠ 0) :
    (cobs_fifo_find_next_len s).2 = { s with mNextLen := (p.length : Int) + 1 } := by
  have hh := hs.head
  have hc := hs.count
  have hr := hs.room
  simp only [List.length_append, List.length_cons, Nat.cast_add, Nat.cast_one] at hh hc
  have h := find_loop_hit s.mBuffer s.mMaxLen p (s.mCount - 1).toNat 1 s.mTail r hs.mem hz
    (by omega) (by omega)
  simp only [cobs_fifo_find_next_len, hfc, if_false, h]
  congr 1
  omega

theorem frameInv_init (mem : Int → Byte) (N : Int) (hN : 0 ≤ N) :
    FrameInv N (cobs_fifo_init mem N) [] :=
  ⟨holds_init mem N hN, rfl, rfl, fun _ => rfl, fun h => (lt_irrefl (0 : Int) h).elim⟩

/-- One `cobs_fifo_push` with room behind the write cursor keeps the frame
bookkeeping. -/
theorem push_frameInv (N : Int) (s : cobs_fifo_t) (l : List Byte) (d : Byte)
    (hs : FrameInv N s l) (hroom : s.mHead + 1 ≤ N) :
    FrameInv N (cobs_fifo_push s d).2 (l ++ [d]) ∧
    (cobs_fifo_push s d).2.mHead = s.mHead + 1 := by
  obtain ⟨_, h2, h3, h4, h5, h6⟩ := push_spec s l d hs.holds (by rw [hs.maxLen]; exact hroom)
  have hf := hs.frames
  have hcnt := hs.holds.count
  have hhead := h2.head
  have hhead0 := hs.holds.head
  simp only [List.length_append, List.length_singleton, Nat.cast_add, Nat.cast_one] at hhead
  refine ⟨⟨h2, by rw [h4]; exact hs.maxLen, ?_, ?_, ?_⟩, by omega⟩
  · rw [h5]
    by_cases hd : d = 0
    · subst hd
      simp only [if_true, List.count_append, List.count_singleton_self, Nat.cast_add,
        Nat.cast_one, hf]
    · have hd2 : (0 : Byte) ≠ d := fun h => hd h.symm
      simp only [hd, if_false, List.count_append, List.count_cons_of_ne hd2, List.count_nil,
        Nat.add_zero, hf]
  · intro h0
    rw [h5] at h0
    by_cases hd : d = 0
    · simp only [hd, if_true] at h0
      omega
    · simp only [hd, if_false] at h0
      rw [h6]
      simp only [hd, false_and, if_false]
      exact hs.none h0
  · intro hpos
    rw [h5] at hpos
    rw [h6]
    by_cases hd : d = 0
    · subst hd
      by_cases hn : s.mNextLen = 0
      · have hfc0 : s.mFrameCount = 0 := by
          by_contra hne
          have := hs.next (by omega)
          simp only [firstZeroOffset, Nat.cast_add, Nat.cast_one] at this
          omega
        have hz : ∀ b ∈ l, b ≠ 0 := by
          have : l.count 0 = 0 := by omega
          intro b hb hb0
          rw [hb0] at hb
          exact (List.count_eq_zero.1 this) hb
        simp only [hn, and_self, if_true, firstZeroOffset_zero_free l [] hz, hcnt,
          Nat.cast_add, Nat.cast_one]
      · have hfc : 0 < s.mFrameCount := by
          by_contra hne
          exact hn (hs.none (by omega))
        have hmem : (0 : Byte) ∈ l := List.count_pos_iff.1 (by omega)
        simp only [hn, and_false, if_false, firstZeroOffset_append l [0] hmem]
        exact hs.next hfc
    · simp only [hd, if_false] at hpos
      have hmem : (0 : Byte) ∈ l := List.count_pos_iff.1 (by omega)
      simp only [hd, false_and, if_false, firstZeroOffset_append l [d] hmem]
      exact hs.next hpos

theorem push_buf_loop_frameInv (N : Int) (data : List Byte) :
    ∀ (s : cobs_fifo_t) (r : cobs_fifo_status_e) (l : List Byte),
      FrameInv N s l → s.mHead + data.length ≤ N →
      FrameInv N (push_buf_loop data s r).2 (l ++ data) := by
  induction data with
  | nil => intro s r l hs _; simpa [push_buf_loop] using hs
  | cons d rest ih =>
    intro s r l hs hroom
    simp only [List.length_cons, Nat.cast_add, Nat.cast_one] at hroom
    obtain ⟨h1, h2⟩ := push_frameInv N s l d hs (by omega)
    have := ih (cobs_fifo_push s d).2 (cobs_fifo_push s d).1 (l ++ [d]) h1 (by omega)
    simpa [push_buf_loop] using this

theorem push_frame_frameInv (N : Int) (s : cobs_fifo_t) (l data : List Byte)
    (hs : FrameInv N s l) (hroom : s.mHead + (cobs_encode data).1 ≤ N) :
    ∃ l1 : List Byte, FrameInv N (cobs_fifo_push_frame s data).2 l1 := by
  by_cases hadm : (data.length : Int) + ((data.length : Int) + 255) / 254 + s.mCount > s.mMaxLen
  · simp only [cobs_fifo_push_frame, hadm, if_true]
    exact ⟨l, hs⟩
  · simp only [cobs_fifo_push_frame, hadm, if_false, cobs_encode_eq, Int.toNat_ofNat,
      List.take_length, cobs_fifo_push_buf]
    rw [cobs_encode_eq] at hroom
    exact ⟨_, push_buf_loop_frameInv N _ s _ l hs hroom⟩

theorem find_next_len_none (s : cobs_fifo_t) (hfc : s.mFrameCount = 0) :
    (cobs_fifo_find_next_len s).2 = { s with mNextLen := 0 } := by
  simp only [cobs_fifo_find_next_len, hfc, if_true]

theorem pop_frame_frameInv (N : Int) (s : cobs_fifo_t) (l : List Byte)
    (scratch : Nat → Byte) (len : Int) (hs : FrameInv N s l) :
    ∃ l1 : List Byte, FrameInv N (cobs_fifo_pop_frame s scratch len).2.1 l1 := by
  by_cases hfc : s.mFrameCount = 0
  · simp only [cobs_fifo_pop_frame, hfc, if_true]
    exact ⟨l, hs⟩
  · have hf := hs.frames
    have hpos : 0 < s.mFrameCount := by omega
    have hmem : (0 : Byte) ∈ l := List.count_pos_iff.1 (by omega)
    obtain ⟨p, r, hl, hz⟩ := split_first_zero l hmem
    have hnl := hs.next hpos
    rw [hl, firstZeroOffset_zero_free p r hz] at hnl
    have hh : Holds s ((p ++ [0]) ++ r) := by
      have := hs.holds
      rw [hl] at this
      simpa using this
    obtain ⟨_, _, s1, k1, k2, k3, k4⟩ := pop_frame_spec s p r scratch len hh hz
      (by rw [hnl]; simp) hfc
    have hcount : (l.count 0 : Nat) = r.count 0 + 1 := by
      have : p.count (0 : Byte) = 0 := List.count_eq_zero.2 (fun h => hz 0 h rfl)
      rw [hl]
      simp [List.count_append, this]
    have hf1 : s1.mFrameCount = (r.count 0 : Nat) := by
      rw [k3, hf, hcount]
      push_cast
      omega
    refine ⟨r, ?_⟩
    rw [k4]
    by_cases hfc1 : s1.mFrameCount = 0
    · rw [find_next_len_none s1 hfc1]
      refine ⟨holds_set_next_len s1 r 0 k1, by rw [← hs.maxLen]; exact k2, ?_, fun _ => rfl, ?_⟩
      · show s1.mFrameCount = _
        exact hf1
      · intro h
        have : (0 : Int) < s1.mFrameCount := h
        omega
    · have hmem1 : (0 : Byte) ∈ r := List.count_pos_iff.1 (by omega)
      obtain ⟨p2, r2, hr, hz2⟩ := split_first_zero r hmem1
      have k1b : Holds s1 (p2 ++ 0 :: r2) := by rw [← hr]; exact k1
      rw [find_next_len_hit s1 p2 r2 k1b hz2 hfc1]
      refine ⟨holds_set_next_len s1 r _ k1, by rw [← hs.maxLen]; exact k2, ?_, ?_, ?_⟩
      · show s1.mFrameCount = _
        exact hf1
      · intro h
        exact absurd h hfc1
      · intro _
        show (p2.length : Int) + 1 = _
        rw [hr, firstZeroOffset_zero_free p2 r2 hz2]
        simp

/-- Every state reached without wrapping keeps the frame bookkeeping. -/
theorem reachableInRoom_frameInv (N : Int) (s : cobs_fifo_t) (h : ReachableInRoom N s) :
    ∃ l : List Byte, FrameInv N s l := by
  induction h with
  | init mem hN => exact ⟨[], frameInv_init mem N hN⟩
  | push s d _ hroom ih =>
    obtain ⟨l, hl⟩ := ih
    exact ⟨_, (push_frameInv N s l d hl hroom).1⟩
  | push_buf s data _ hroom ih =>
    obtain ⟨l, hl⟩ := ih
    exact ⟨_, push_buf_loop_frameInv N data s _ l hl hroom⟩
  | push_frame s data _ hroom ih =>
    obtain ⟨l, hl⟩ := ih
    exact push_frame_frameInv N s l data hl hroom
  | pop_frame s scratch len _ ih =>
    obtain ⟨l, hl⟩ := ih
    exact pop_frame_frameInv N s l scratch len hl

/-! ## Claims on the frame bookkeeping and the destination -/

/-- A byte-level pop leaves `mNextLen` behind: after `push(5)`, `push(0)`,
`pop()` on a queue of capacity 8 one frame is counted, the only buffered byte
is the zero byte at offset 1, and `mNextLen` is still 2. -/
theorem next_len_stale_after_pop :
    Reachable 8 rawPoppedQueue8 ∧ 0 < rawPoppedQueue8.mFrameCount ∧
    buffered rawPoppedQueue8 = [0] ∧ firstZeroOffset (buffered rawPoppedQueue8) = 1 ∧
    rawPoppedQueue8.mNextLen = 2 ∧
    rawPoppedQueue8.mNextLen ≠ (firstZeroOffset (buffered rawPoppedQueue8) : Nat) :=
  ⟨Reachable.pop _ _ (Reachable.push _ _ (Reachable.push _ _ (Reachable.init staleHeap))),
    by decide, by decide, by decide, by decide, by decide⟩

/-- Where the bookkeeping of `mNextLen` does hold: in every state reached from
`cobs_fifo_init(N)` by `push`, `push_buf`, `push_frame` and `pop_frame` while
every push operation finds room between the write cursor and `mMaxLen`, if
`mFrameCount > 0` then `mNextLen` is the 1-based offset of the first zero byte
of the buffered stream. -/
theorem next_len_invariant (N : Int) (s : cobs_fifo_t) (h : ReachableInRoom N s)
    (hfc : 0 < s.mFrameCount) :
    s.mNextLen = (firstZeroOffset (buffered s) : Nat) := by
  obtain ⟨l, hl⟩ := reachableInRoom_frameInv N s h
  rw [holds_buffered s l hl.holds]
  exact hl.next hfc

set_option maxRecDepth 100000 in
theorem reachableInRoom_multiframesQueue : ReachableInRoom 128 multiframesQueue :=
  ReachableInRoom.pop_frame _ _ _
    (ReachableInRoom.push_frame _ _
      (ReachableInRoom.push_frame _ _ (ReachableInRoom.init staleHeap (by decide)) (by decide))
      (by decide))

set_option maxRecDepth 100000 in
/-- The bookkeeping of `mNextLen` at the unit test `multiframes`, after the
first frame is popped. -/
theorem next_len_invariant_witness :
    ReachableInRoom 128 multiframesQueue ∧ 0 < multiframesQueue.mFrameCount ∧
    multiframesQueue.mNextLen = (firstZeroOffset (buffered multiframesQueue) : Nat) :=
  ⟨reachableInRoom_multiframesQueue, by decide,
    next_len_invariant 128 multiframesQueue reachableInRoom_multiframesQueue (by decide)⟩

theorem reachable_wrapPoppedQueue7 : Reachable 7 wrapPoppedQueue7 :=
  Reachable.pop_frame _ _ _ reachable_wrappedQueue7

theorem reachable_bufPoppedQueue8 : Reachable 8 bufPoppedQueue8 :=
  Reachable.pop_buf _ _ (Reachable.push_buf _ _ (Reachable.init staleHeap))

/-- C12, evaluated where it fails: in a queue of capacity 7, after
`push_frame [5]`, `push_frame [5]`, `pop_frame`, `push_frame [5]`, `pop_frame`,
every push returning `COBS_FIFO_OK`, one frame is counted, the buffered stream
is `02 05 00` with its first zero byte at offset 3, and `mNextLen` is 2. -/
theorem next_len_wrong_after_wrap :
    Reachable 7 wrapPoppedQueue7 ∧
    (cobs_fifo_push_frame (cobs_fifo_init staleHeap 7) [5]).1 = COBS_FIFO_OK ∧
    (cobs_fifo_push_frame (cobs_fifo_push_frame (cobs_fifo_init staleHeap 7) [5]).2 [5]).1
      = COBS_FIFO_OK ∧
    (cobs_fifo_push_frame
      (cobs_fifo_pop_frame
        (cobs_fifo_push_frame (cobs_fifo_push_frame (cobs_fifo_init staleHeap 7) [5]).2 [5]).2
        staleStack 1).2.1 [5]).1 = COBS_FIFO_OK ∧
    0 < wrapPoppedQueue7.mFrameCount ∧
    buffered wrapPoppedQueue7 = [2, 5, 0] ∧
    firstZeroOffset (buffered wrapPoppedQueue7) = 3 ∧
    wrapPoppedQueue7.mNextLen = 2 ∧
    cobs_fifo_get_next_len wrapPoppedQueue7
      ≠ (firstZeroOffset (buffered wrapPoppedQueue7) : Nat) :=
  ⟨reachable_wrapPoppedQueue7, by decide, by decide, by decide, by decide, by decide,
    by decide, by decide, by decide⟩

/-- The byte-level pops leave `mNextLen` behind as well: after `push_buf` of
`05 00 06 07 00` and `pop_buf` of two bytes in a queue of capacity 8, one
frame is counted, the buffered stream is `06 07 00` with its first zero byte
at offset 3, and `mNextLen` is 1. -/
theorem next_len_wrong_after_pop_buf :
    Reachable 8 bufPoppedQueue8 ∧ 0 < bufPoppedQueue8.mFrameCount ∧
    buffered bufPoppedQueue8 = [6, 7, 0] ∧
    firstZeroOffset (buffered bufPoppedQueue8) = 3 ∧
    bufPoppedQueue8.mNextLen = 1 :=
  ⟨reachable_bufPoppedQueue8, by decide, by decide, by decide, by decide⟩

set_option maxRecDepth 100000 in
/-- C14, evaluated where it fails: in the unit test `popframe`,
`cobs_fifo_pop_frame(fifo, data, 21)` stores 22 bytes at `data`. -/
theorem pop_frame_exceeds_len :
    (cobs_fifo_pop_frame (cobs_fifo_push_frame (cobs_fifo_init staleHeap 128) cobs_Frame0).2
      staleStack 21).2.2 = cobs_Frame0 ++ [0] ∧
    (cobs_fifo_pop_frame (cobs_fifo_push_frame (cobs_fifo_init staleHeap 128) cobs_Frame0).2
      staleStack 21).2.2.length = 22 := by
  decide

/-- The argument `len` of `cobs_fifo_pop_frame` has no effect on what is
stored or returned. -/
theorem pop_frame_ignores_len (s : cobs_fifo_t) (scratch : Nat → Byte) (len1 len2 : Int) :
    cobs_fifo_pop_frame s scratch len1 = cobs_fifo_pop_frame s scratch len2 := rfl

end Cobs
